import Mathlib

/-!
# Verified model of the Factory inventory ledger (src/core)

A shallow embedding of the stock-ledger core of the Factory Django
application: `Material`, `Product`, `BillOfMaterial`, `Batch`,
`StockMovement`, `ProductionOperation.save`, `StockAdjustment.save`,
`Shift.close` from `src/core/models.py`, and the `production_create` /
batch-progress views from `src/core/views.py`.

## Representation of `Decimal` fields

Every quantity column is a `DecimalField` with a fixed number of decimal
places, so its stored values live on a fixed grid; we represent them as
integers counting grid steps:

* `decimal_places=3` fields (`Material.stock`, `Product.stock`,
  `BillOfMaterial.qty_per_one`, `Batch.planned_qty`,
  `ProductionOperation.qty`, `StockMovement.qty`, `StockAdjustment.qty`)
  are integers in **milli-units** (value × 1000);
* `decimal_places=2` fields (`Product.piece_rate`, `pay_rate`,
  `pay_total`, `Shift.hours`) are integers in **centi-units**
  (value × 100);
* timestamps are integer seconds.

`Decimal` arithmetic on such operands is exact (well inside the 28-digit
context), so sums and differences of same-grid values stay on the grid
and a `.quantize` at the operand's own precision is the identity; the
only genuine rounding happens where the source multiplies or divides and
immediately quantizes, embedded below as integer rounding division.
A bare `.quantize(...)` uses the decimal context default ROUND_HALF_EVEN;
`stock_display` passes ROUND_HALF_UP explicitly.  The integer rounding
divisions are proved equal to the mathematical roundings on ℚ
(`rdivHE_eq_roundHalfEvenZ`, `rdivHU_eq_roundHalfUpZ`).

Database effects are modelled by explicit state passing over a `Store`
record; a function wrapped in `transaction.atomic` becomes a pure
function returning `Except` — an error carries no state, which is
exactly the rollback-on-raise semantics of the source.  Row locks
(`select_for_update`) and row writes are recorded in an event trace so
that lock-ordering properties can be stated.
-/

namespace Factory

/-! ## Rounding -/

/-- Round a rational to the nearest integer, ties away from zero —
Python's `ROUND_HALF_UP`. -/
def roundHalfUpZ (q : ℚ) : ℤ :=
  if 0 ≤ q then ⌊q + 1/2⌋ else -⌊-q + 1/2⌋

/-- Round a rational to the nearest integer, ties to even — Python's
`ROUND_HALF_EVEN`, the default context rounding. -/
def roundHalfEvenZ (q : ℚ) : ℤ :=
  let f := ⌊q⌋
  if q - f < 1/2 then f
  else if (1:ℚ)/2 < q - f then f + 1
  else if f % 2 = 0 then f else f + 1

/-- Integer implementation of half-even rounding of `a / b` (for
`0 < b`): the embedding of `x.quantize(...)` with the default context
rounding, scaled to integers. -/
def rdivHE (a b : ℤ) : ℤ :=
  if 2 * (a % b) < b then a / b
  else if b < 2 * (a % b) then a / b + 1
  else if (a / b) % 2 = 0 then a / b else a / b + 1

/-- Integer implementation of half-up (ties away from zero) rounding of
`a / b` (for `0 < b`): the embedding of `x.quantize(..., ROUND_HALF_UP)`
scaled to integers. -/
def rdivHU (a b : ℤ) : ℤ :=
  if 0 ≤ a then (2 * a + b) / (2 * b)
  else -((2 * -a + b) / (2 * b))

/-- Embedding of `x.quantize(step, ROUND_HALF_UP)` for a value `v` (in milli-units)
and a grid step `p` (in milli-units): the nearest multiple of `p`, ties
away from zero. -/
def quantizeAtHU (p v : ℤ) : ℤ := rdivHU v p * p

/-! ## Entity records (`src/core/models.py`)

Rows are plain records; `id` plays the role of the database primary
key.  Fields irrelevant to the ledger semantics (timestamps, free-text
notes and comments, `is_active` flags) are omitted where no claim
depends on them. -/

/-- The `Unit` text choices (pcs / m / kg); named `MUnit` because `Unit` is
taken in Lean. -/
inductive MUnit where
  | pcs
  | meter
  | kg
deriving DecidableEq, Repr

/-- A `Material` row: unique name, unit, 3-decimal `stock`
(milli-units). -/
structure Material where
  id : ℕ
  name : String
  unit : MUnit
  stock : ℤ
deriving DecidableEq, Repr

/-- A `Product` row: 3-decimal `stock` (milli-units) and 2-decimal
`piece_rate` (centi-units). -/
structure Product where
  id : ℕ
  name : String
  stock : ℤ
  piece_rate : ℤ
deriving DecidableEq, Repr

/-- A `BillOfMaterial` row: 3-decimal consumption per produced unit
(milli-units); `(product, material)` is unique in the database. -/
structure BillOfMaterial where
  product_id : ℕ
  material_id : ℕ
  qty_per_one : ℤ
deriving DecidableEq, Repr

/-- The `StockMovementType` text choices. -/
inductive MovementType where
  | in_
  | out
deriving DecidableEq, Repr

/-- A `StockMovement` ledger row (qty in milli-units): exactly one of
`material` / `product` is set by every engine write. -/
structure StockMovement where
  movement_type : MovementType
  qty : ℤ
  material : Option ℕ
  product : Option ℕ
deriving DecidableEq, Repr

/-- The `BatchStatus` text choices. -/
inductive BatchStatus where
  | planned
  | in_progress
  | done
  | canceled
deriving DecidableEq, Repr

/-- A `Batch` row (`planned_qty` in milli-units). -/
structure Batch where
  id : ℕ
  product_id : ℕ
  planned_qty : ℤ
  status : BatchStatus
deriving DecidableEq, Repr

/-- A committed `ProductionOperation` row: `qty` in milli-units,
`pay_rate`/`pay_total` in centi-units. -/
structure ProductionOperation where
  employee : ℕ
  product_id : ℕ
  qty : ℤ
  batch : Option ℕ
  pay_rate : ℤ
  pay_total : ℤ
deriving DecidableEq, Repr

/-- The persistent state the ledger engine reads and writes: one list
per table.  List order models database return order for unordered
queries (the BOM query in `ProductionOperation.save` has no
`order_by`). -/
structure Store where
  materials : List Material
  products : List Product
  boms : List BillOfMaterial
  batches : List Batch
  movements : List StockMovement
  operations : List ProductionOperation
deriving DecidableEq, Repr

/-- Lookup `Material.objects.get(pk=mid)` — first row with the given id. -/
def findMaterial (s : Store) (mid : ℕ) : Option Material :=
  s.materials.find? (fun m => m.id == mid)

/-- Lookup `Product.objects.get(pk=pid)`. -/
def findProduct (s : Store) (pid : ℕ) : Option Product :=
  s.products.find? (fun p => p.id == pid)

/-- Lookup `Batch.objects.get(pk=bid)`. -/
def findBatch (s : Store) (bid : ℕ) : Option Batch :=
  s.batches.find? (fun b => b.id == bid)

/-- Query `BillOfMaterial.objects.filter(product_id=pid)` in stored order
(the source issues this query with no `order_by`). -/
def bomFor (s : Store) (pid : ℕ) : List BillOfMaterial :=
  s.boms.filter (fun b => b.product_id == pid)

/-- Write `mat.save(update_fields=["stock"])` — write the stock field of the
row with the given id.  A plain `save` runs no validation. -/
def setMaterialStock (s : Store) (mid : ℕ) (v : ℤ) : Store :=
  { s with materials :=
      s.materials.map (fun m => if m.id == mid then { m with stock := v } else m) }

/-- Write `product.save(update_fields=["stock"])`. -/
def setProductStock (s : Store) (pid : ℕ) (v : ℤ) : Store :=
  { s with products :=
      s.products.map (fun p => if p.id == pid then { p with stock := v } else p) }

/-- Write `batch.save(update_fields=["status"])`. -/
def setBatchStatus (s : Store) (bid : ℕ) (st : BatchStatus) : Store :=
  { s with batches :=
      s.batches.map (fun b => if b.id == bid then { b with status := st } else b) }

/-- Display precision of a material's unit in milli-units: `0.01` (10)
for meters and kilograms, `0.1` (100) for pieces
(`Material.stock_display`). -/
def MUnit.displayPrec : MUnit → ℤ
  | .meter => 10
  | .kg => 10
  | .pcs => 100

/-- Source `Material.stock_display`: the stock quantized at the
unit-appropriate precision with ROUND_HALF_UP. -/
def Material.stock_display (m : Material) : ℤ :=
  quantizeAtHU m.unit.displayPrec m.stock

/-- Source `Material.clean`: overwrite `stock` with its display rounding.
This runs on every validated (`full_clean`) save — i.e. operator edits
through forms and the admin — but not on the ledger engine's
`update_fields` writes. -/
def Material.clean (m : Material) : Material :=
  { m with stock := m.stock_display }

/-- Source `Product.stock_display`: the stock quantized to a whole number
(step 1000 in milli-units) with ROUND_HALF_UP. -/
def Product.stock_display (p : Product) : ℤ :=
  quantizeAtHU 1000 p.stock

/-- Source `Product.clean`: overwrite `stock` with its whole-number display
rounding; runs only on validated saves, not on ledger writes. -/
def Product.clean (p : Product) : Product :=
  { p with stock := p.stock_display }

/-! ## Errors and the event trace -/

/-- The failure kinds surfaced by the ledger engine.  In the source
these are `ValidationError`s (and `DoesNotExist` for missing rows); the
`insufficientStock` message is built from per-material
`(name, required, available)` triples, carried here structurally
(required and available in milli-units). -/
inductive LedgerError where
  | invalidQuantity
  | missingBom
  | insufficientStock (shortages : List (String × ℤ × ℤ))
  | conflictingTarget
  | notFound
  | invalidShiftTiming
deriving DecidableEq, Repr

/-- Row-level events emitted by `ProductionOperation.save`:
`select_for_update` lock acquisitions and stock writes, in program
order. -/
inductive Event where
  | lockProduct (pid : ℕ)
  | lockMaterial (mid : ℕ)
  | writeMaterial (mid : ℕ)
  | writeProduct (pid : ℕ)
deriving DecidableEq, Repr

/-- Required consumption for one recipe line:
`(item.qty_per_one * self.qty).quantize(Decimal("0.001"))` — a bare
`quantize`, hence default ROUND_HALF_EVEN.  In milli-units the product
of the two 3-decimal operands carries a factor 10⁶ and the quantized
result a factor 10³, whence the division by 1000. -/
def requiredAmount (qty_per_one qty : ℤ) : ℤ :=
  rdivHE (qty_per_one * qty) 1000

/-- Pay for the operation:
`(self.pay_rate * self.qty).quantize(Decimal("0.01"))` — again default
ROUND_HALF_EVEN.  `pay_rate` is in centi-units and `qty` in
milli-units, so the centi-unit result divides by 1000. -/
def payTotalCalc (rate qty : ℤ) : ℤ :=
  rdivHE (rate * qty) 1000

/-- The availability-check loop of `ProductionOperation.save` (step 1 in
the source comments): for each BOM line, lock the material row
(`select_for_update().get`) and compute its required amount.  Returns
the fetched `(material, required)` snapshots in BOM order together with
the lock events. -/
def checkBom (s : Store) (qty : ℤ) :
    List BillOfMaterial → Except LedgerError (List (Material × ℤ)) × List Event
  | [] => (.ok [], [])
  | item :: rest =>
    match findMaterial s item.material_id with
    | none => (.error .notFound, [])
    | some mat =>
      let cb := checkBom s qty rest
      match cb.1 with
      | .ok l =>
        (.ok ((mat, requiredAmount item.qty_per_one qty) :: l), .lockMaterial mat.id :: cb.2)
      | .error e => (.error e, .lockMaterial mat.id :: cb.2)

/-- The shortage list accumulated during the check loop: one
`(name, required, available)` triple per material whose stock is below
its required amount, in BOM order. -/
def shortfalls (l : List (Material × ℤ)) : List (String × ℤ × ℤ) :=
  (l.filter (fun p => p.1.stock < p.2)).map (fun p => (p.1.name, p.2, p.1.stock))

/-- The mutation loop (step 2 in the source): for each fetched
`(material, required)` snapshot, write
`stock := (mat.stock - required).quantize(Decimal("0.001"))` — the
difference of two 3-decimal values is exact, so at milli scale the
quantize is the identity — and append a
`StockMovement(OUT, required, material)` linked to the operation. -/
def applyDebits : Store → List (Material × ℤ) → Store × List Event
  | s, [] => (s, [])
  | s, p :: rest =>
    let s1 := setMaterialStock s p.1.id (p.1.stock - p.2)
    let s2 := { s1 with movements :=
        s1.movements ++ [⟨.out, p.2, some p.1.id, none⟩] }
    ((applyDebits s2 rest).1, .writeMaterial p.1.id :: (applyDebits s2 rest).2)

/-- The mutation phase of a successful `ProductionOperation.save`
(steps 2–4 in the source comments), starting from the fetched
snapshots: debit the materials, credit the product
(`(product.stock + self.qty).quantize(Decimal("0.001"))` — exact at
milli scale), append the IN movement, and persist the operation row
with `pay_rate` snapshotted from the product's `piece_rate` and the
computed `pay_total`. -/
def prodFinish (s : Store) (employee pid : ℕ) (batch : Option ℕ) (qty : ℤ)
    (product : Product) (requiredMap : List (Material × ℤ)) : Store :=
  let s1 := (applyDebits s requiredMap).1
  let s2 := setProductStock s1 pid (product.stock + qty)
  let s3 := { s2 with movements :=
      s2.movements ++ [(⟨.in_, qty, none, some pid⟩ : StockMovement)] }
  { s3 with operations :=
      s3.operations ++
        [(⟨employee, pid, qty, batch, product.piece_rate,
          payTotalCalc product.piece_rate qty⟩ : ProductionOperation)] }

/-- Source `ProductionOperation.save` for a new record, inside
`transaction.atomic`: validate (`full_clean` — quantity positive and
integral, i.e. a multiple of 1000 milli-units), lock the product row,
resolve the BOM (error when empty), run the check loop, abort on
shortages, then run the mutation phase (`prodFinish`).  An error result
models the transaction rollback: no state escapes.  The second
component is the lock/write event trace. -/
def productionSaveT (s : Store) (employee pid : ℕ) (batch : Option ℕ) (qty : ℤ) :
    Except LedgerError Store × List Event :=
  if ¬ (0 < qty ∧ qty % 1000 = 0) then (.error .invalidQuantity, [])
  else
    match findProduct s pid with
    | none => (.error .notFound, [])
    | some product =>
      let bom := bomFor s pid
      if bom.isEmpty then (.error .missingBom, [.lockProduct pid])
      else
        let cb := checkBom s qty bom
        match cb.1 with
        | .error e => (.error e, .lockProduct pid :: cb.2)
        | .ok requiredMap =>
          if shortfalls requiredMap ≠ [] then
            (.error (.insufficientStock (shortfalls requiredMap)), .lockProduct pid :: cb.2)
          else
            (.ok (prodFinish s employee pid batch qty product requiredMap),
              .lockProduct pid :: cb.2 ++ (applyDebits s requiredMap).2
                ++ [.writeProduct pid])

/-- The state-transformer view of `ProductionOperation.save`. -/
def productionSave (s : Store) (employee pid : ℕ) (batch : Option ℕ) (qty : ℤ) :
    Except LedgerError Store :=
  (productionSaveT s employee pid batch qty).1

instance exceptDecEq {ε α : Type} [DecidableEq ε] [DecidableEq α] :
    DecidableEq (Except ε α)
  | .ok a, .ok b =>
    if h : a = b then .isTrue (by rw [h]) else .isFalse (by simp [h])
  | .ok _, .error _ => .isFalse (by simp)
  | .error _, .ok _ => .isFalse (by simp)
  | .error e, .error f =>
    if h : e = f then .isTrue (by rw [h]) else .isFalse (by simp [h])

/-- The `AdjustmentTarget` text choices. -/
inductive AdjTarget where
  | material
  | product
deriving DecidableEq, Repr

/-- The mutation phase of a successful material adjustment: apply the
signed delta — `stock + qty` for IN, `stock - qty` for OUT, with no
re-quantization in the source (exact at milli scale anyway) — and
append one movement. -/
def adjFinishM (s : Store) (m : ℕ) (mat : Material) (mt : MovementType) (qty : ℤ) :
    Store :=
  let s1 := setMaterialStock s m
    (if mt = .in_ then mat.stock + qty else mat.stock - qty)
  { s1 with movements :=
      s1.movements ++ [(⟨mt, qty, some m, none⟩ : StockMovement)] }

/-- The mutation phase of a successful product adjustment. -/
def adjFinishP (s : Store) (p : ℕ) (prod : Product) (mt : MovementType) (qty : ℤ) :
    Store :=
  let s1 := setProductStock s p
    (if mt = .in_ then prod.stock + qty else prod.stock - qty)
  { s1 with movements :=
      s1.movements ++ [(⟨mt, qty, none, some p⟩ : StockMovement)] }

/-- Source `StockAdjustment.save` for a new record, inside
`transaction.atomic`: `full_clean` (quantity positive; exactly one
reference populated, matching the declared target type), lock the
single target row, reject an OUT that exceeds the current stock, then
run the mutation phase. -/
def adjustmentSave (s : Store) (target : AdjTarget) (mid pid : Option ℕ)
    (mt : MovementType) (qty : ℤ) : Except LedgerError Store :=
  if ¬ (0 < qty) then .error .invalidQuantity
  else
    match target with
    | .material =>
      match mid, pid with
      | some m, none =>
        match findMaterial s m with
        | none => .error .notFound
        | some mat =>
          if mt = .out ∧ mat.stock < qty then
            .error (.insufficientStock [(mat.name, qty, mat.stock)])
          else
            .ok (adjFinishM s m mat mt qty)
      | _, _ => .error .conflictingTarget
    | .product =>
      match mid, pid with
      | none, some p =>
        match findProduct s p with
        | none => .error .notFound
        | some prod =>
          if mt = .out ∧ prod.stock < qty then
            .error (.insufficientStock [(prod.name, qty, prod.stock)])
          else
            .ok (adjFinishP s p prod mt qty)
      | _, _ => .error .conflictingTarget

/-! ## Shift timer (`Shift` model) -/

/-- A `Shift` row; timestamps are integer seconds since an arbitrary
epoch, `hours` is in centi-units. -/
structure Shift where
  employee : ℕ
  started_at : ℤ
  ended_at : Option ℤ
  hours : ℤ
deriving DecidableEq, Repr

/-- Source `Shift._calc_hours`: elapsed seconds divided by 3600, quantized to
2 decimals (bare `quantize`, default ROUND_HALF_EVEN): in centi-units,
`roundHE(seconds·100 / 3600)`. -/
def Shift.calc_hours (sh : Shift) : ℤ :=
  match sh.ended_at with
  | none => 0
  | some e => rdivHE ((e - sh.started_at) * 100) 3600

/-- Source `Shift.close`: an already-closed shift returns immediately with no
recomputation; otherwise stamp `ended_at := now`, compute hours, and
`full_clean` rejects `ended_at ≤ started_at`. -/
def Shift.close (sh : Shift) (now : ℤ) : Except LedgerError Shift :=
  if sh.ended_at.isSome then .ok sh
  else
    let sh1 : Shift := { sh with ended_at := some now }
    let sh2 : Shift := { sh1 with hours := sh1.calc_hours }
    if now ≤ sh.started_at then .error .invalidShiftTiming
    else .ok sh2

/-! ## Batch progress (`views.work`, `views.batches_list`,
`BatchAdmin.remaining_qty`) -/

/-- Aggregation `b.operations.aggregate(x=Sum("qty"))["x"] or Decimal("0.000")`:
the summed quantity of the batch's linked operations, `0` when there
are none. -/
def batchDone (s : Store) (bid : ℕ) : ℤ :=
  ((s.operations.filter (fun op => op.batch == some bid)).map (fun op => op.qty)).sum

/-- Remaining quantity `(b.planned_qty - done).quantize(Decimal("0.001"))` — exact at
milli scale — clamped to zero when negative; computed identically in
the worker view, the batch listing and the admin column. -/
def batchRemaining (s : Store) (b : Batch) : ℤ :=
  let r := b.planned_qty - batchDone s b.id
  if r < 0 then 0 else r

/-! ## The `production_create` view (`src/core/views.py`)

The view resolves the batch, flips a Planned batch to InProgress with
its own `batch.save(update_fields=["status"])` — a write that commits
on its own, *before* and *outside* `ProductionOperation.save`'s
`transaction.atomic` block — and then attempts the save, catching any
`ValidationError` into a flash message (so a failed save leaves the
view's earlier writes in place). -/

def production_create (s : Store) (employee bid : ℕ) (qty : ℤ) : Store :=
  match findBatch s bid with
  | none => s
  | some b =>
    let s1 := if b.status = .planned then setBatchStatus s bid .in_progress else s
    match productionSave s1 employee b.product_id (some bid) qty with
    | .ok s2 => s2
    | .error _ => s1

/-! ## Operation sequences and the movement ledger -/

/-- One ledger-engine invocation: a production event or a manual
adjustment. -/
inductive LedgerOp where
  | production (employee pid : ℕ) (batch : Option ℕ) (qty : ℤ)
  | adjustment (target : AdjTarget) (mid pid : Option ℕ) (mt : MovementType) (qty : ℤ)
deriving DecidableEq, Repr

/-- Run one invocation against the store; a failed invocation rolls
back and leaves the store unchanged. -/
def applyOp (s : Store) : LedgerOp → Store
  | .production e pid b q =>
    match productionSave s e pid b q with
    | .ok s' => s'
    | .error _ => s
  | .adjustment t m p mt q =>
    match adjustmentSave s t m p mt q with
    | .ok s' => s'
    | .error _ => s

/-- Run a sequence of invocations. -/
def runOps (s : Store) (ops : List LedgerOp) : Store :=
  ops.foldl applyOp s

/-- The signed value of a movement: IN positive, OUT negative. -/
def signedQty (mv : StockMovement) : ℤ :=
  match mv.movement_type with
  | .in_ => mv.qty
  | .out => -mv.qty

/-- Signed sum of the movements in a list recorded for material `mid`. -/
def matLedgerList (movs : List StockMovement) (mid : ℕ) : ℤ :=
  ((movs.filter (fun mv => mv.material == some mid)).map signedQty).sum

/-- Signed sum of the movements in a list recorded for product `pid`. -/
def prodLedgerList (movs : List StockMovement) (pid : ℕ) : ℤ :=
  ((movs.filter (fun mv => mv.product == some pid)).map signedQty).sum

/-- Signed sum of all movements recorded for material `mid`. -/
def materialLedger (s : Store) (mid : ℕ) : ℤ :=
  matLedgerList s.movements mid

/-- Signed sum of all movements recorded for product `pid`. -/
def productLedger (s : Store) (pid : ℕ) : ℤ :=
  prodLedgerList s.movements pid

/-- Current stock of material `mid` (0 when no such row). -/
def matStock (s : Store) (mid : ℕ) : ℤ :=
  ((findMaterial s mid).map Material.stock).getD 0

/-- Current stock of product `pid` (0 when no such row). -/
def prodStock (s : Store) (pid : ℕ) : ℤ :=
  ((findProduct s pid).map Product.stock).getD 0

/-- Store well-formedness, exactly the guarantees the database schema
provides: stocks non-negative, primary keys unique, and — from the
`(product, material)` unique constraint — no product's BOM names a
material twice. -/
def WFStore (s : Store) : Prop :=
  (∀ m ∈ s.materials, 0 ≤ m.stock) ∧
  (∀ p ∈ s.products, 0 ≤ p.stock) ∧
  (s.materials.map Material.id).Nodup ∧
  (s.products.map Product.id).Nodup ∧
  (∀ b ∈ s.boms, ((bomFor s b.product_id).map BillOfMaterial.material_id).Nodup)

instance (s : Store) : Decidable (WFStore s) := by
  unfold WFStore
  infer_instance

/-! ## Characterizing the check loop -/

/-- The pointwise relation between a BOM line and the snapshot the check
loop fetches for it. -/
def ReqSnap (s : Store) (qty : ℤ) (item : BillOfMaterial) (p : Material × ℤ) : Prop :=
  findMaterial s item.material_id = some p.1 ∧
    p.2 = requiredAmount item.qty_per_one qty

/-! ## Demonstration stores

`demoStore` is the spec's worked example: material "Paper" (meter,
stock 10.000), product "Gift" (piece rate 3.50) consuming 0.500 m per
unit, one planned batch of 100. -/

def demoStore : Store :=
  { materials := [⟨1, "Paper", .meter, 10000⟩]
    products := [⟨1, "Gift", 0, 350⟩]
    boms := [⟨1, 1, 500⟩]
    batches := [⟨1, 1, 100000, .planned⟩]
    movements := []
    operations := [] }

/-- A mixed run: produce 5 Gifts, correct Paper down by 3.000, correct
Gift up by 2.000, then a failing oversized production (needs 20.000 m
against 4.500 left). -/
def demoOps : List LedgerOp :=
  [ .production 7 1 (some 1) 5000,
    .adjustment .material (some 1) none .out 3000,
    .adjustment .product none (some 1) .in_ 2000,
    .production 7 1 (some 1) 40000 ]

/-- Spec scenario 6: plan 100, three recorded operations of 30, 50 and
30 units. -/
def overshootStore : Store :=
  { materials := []
    products := []
    boms := []
    batches := [⟨1, 1, 100000, .in_progress⟩]
    movements := []
    operations := [⟨7, 1, 30000, some 1, 0, 0⟩, ⟨7, 1, 50000, some 1, 0, 0⟩,
      ⟨7, 1, 30000, some 1, 0, 0⟩] }

/-- A store whose product carries fractional (2.400) stock. -/
def fractionalStore : Store :=
  { materials := [⟨1, "Paper", .meter, 10000⟩]
    products := [⟨1, "Gift", 2400, 350⟩]
    boms := [⟨1, 1, 500⟩]
    batches := []
    movements := []
    operations := [] }

/-- The state produced by the production save after demoStore's worked
example: Paper debited to 7.500, Gift credited to 5.000, two movements
and the pay-stamped operation row appended. -/
def demoAfter : Store :=
  { materials := [⟨1, "Paper", .meter, 7500⟩]
    products := [⟨1, "Gift", 5000, 350⟩]
    boms := [⟨1, 1, 500⟩]
    batches := [⟨1, 1, 100000, .planned⟩]
    movements := [⟨.out, 2500, some 1, none⟩, ⟨.in_, 5000, none, some 1⟩]
    operations := [⟨7, 1, 5000, some 1, 350, 1750⟩] }

/-- The structured shortage report computed over a product's recipe:
one `(name, required, available)` triple per material whose stock is
below its required amount, in BOM order. -/
def shortList (s : Store) (qty : ℤ) (bom : List BillOfMaterial) :
    List (String × ℤ × ℤ) :=
  bom.filterMap (fun item =>
    (findMaterial s item.material_id).bind (fun m =>
      if m.stock < requiredAmount item.qty_per_one qty then
        some (m.name, requiredAmount item.qty_per_one qty, m.stock)
      else none))

/-- A store whose batch is planned but whose product has no BOM rows:
Record Production against it fails with `MissingBOM`. -/
def noBomStore : Store :=
  { materials := [⟨1, "Paper", .meter, 10000⟩]
    products := [⟨1, "Widget", 0, 350⟩]
    boms := []
    batches := [⟨1, 1, 100000, .planned⟩]
    movements := []
    operations := [] }

/-- A store whose recipe consumes 0.501 m per unit: a production of 5
debits 2.505 and leaves stock 7.495, off the meter display grid. -/
def oddStore : Store :=
  { materials := [⟨1, "Paper", .meter, 10000⟩]
    products := [⟨1, "Gift", 0, 350⟩]
    boms := [⟨1, 1, 501⟩]
    batches := []
    movements := []
    operations := [] }

/-! ## Lock-ordering (the event trace of `ProductionOperation.save`) -/

/-- The material ids locked by a trace, in acquisition order. -/
def materialLocks : List Event → List ℕ
  | [] => []
  | .lockMaterial mid :: tr => mid :: materialLocks tr
  | _ :: tr => materialLocks tr

/-- Stock-mutation events. -/
def isStockWrite : Event → Bool
  | .writeMaterial _ => true
  | .writeProduct _ => true
  | _ => false

/-- Material-lock events. -/
def isMaterialLock : Event → Bool
  | .lockMaterial _ => true
  | _ => false

/-- A list of ids is in ascending order. -/
def ascendingB : List ℕ → Bool
  | [] => true
  | [_] => true
  | a :: b :: t => a ≤ b && ascendingB (b :: t)

/-- No material lock is acquired after the first stock write. -/
def locksBeforeWrites (tr : List Event) : Bool :=
  (tr.dropWhile (fun ev => !isStockWrite ev)).all (fun ev => !isMaterialLock ev)

/-- Materials 5 and 2, with the BOM row for material 5 stored (and thus
returned) before the row for material 2. -/
def unorderedBomStore : Store :=
  { materials := [⟨5, "Ribbon", .meter, 10000⟩, ⟨2, "Paper", .meter, 10000⟩]
    products := [⟨1, "Gift", 0, 350⟩]
    boms := [⟨1, 5, 500⟩, ⟨1, 2, 500⟩]
    batches := []
    movements := []
    operations := [] }

/-! ## Theorems -/

theorem roundHalfEvenZ_intCast (z : ℤ) : roundHalfEvenZ (z : ℚ) = z := by
  simp [roundHalfEvenZ]

theorem roundHalfUpZ_intCast (z : ℤ) : roundHalfUpZ (z : ℚ) = z := by
  have h1 : ∀ w : ℤ, ⌊(w : ℚ) + 1/2⌋ = w := by
    intro w
    rw [add_comm, Int.floor_add_int]
    norm_num
  unfold roundHalfUpZ
  split
  · exact h1 z
  · have h2 : -(z : ℚ) + 1/2 = ((-z : ℤ) : ℚ) + 1/2 := by push_cast; ring
    rw [h2, h1 (-z)]
    omega

theorem floor_intCast_div {a b : ℤ} (hb : 0 < b) :
    ⌊(a : ℚ) / (b : ℚ)⌋ = a / b := by
  obtain ⟨n, rfl⟩ : ∃ n : ℕ, b = (n : ℤ) := ⟨b.toNat, (Int.toNat_of_nonneg hb.le).symm⟩
  exact_mod_cast Rat.floor_intCast_div_natCast a n

/-- The integer half-even division agrees with mathematical half-even
rounding of the exact quotient. -/
theorem rdivHE_eq_roundHalfEvenZ (a : ℤ) {b : ℤ} (hb : 0 < b) :
    rdivHE a b = roundHalfEvenZ ((a : ℚ) / (b : ℚ)) := by
  have hbQ : (0:ℚ) < (b : ℚ) := by exact_mod_cast hb
  have hfloor : ⌊(a:ℚ) / (b:ℚ)⌋ = a / b := floor_intCast_div hb
  have hmod := Int.emod_add_ediv a b
  have hQ : ((a % b : ℤ) : ℚ) + (b:ℚ) * ((a / b : ℤ) : ℚ) = (a:ℚ) := by
    exact_mod_cast congrArg (fun z : ℤ => (z : ℚ)) hmod
  have hval : (a:ℚ)/(b:ℚ) - ((a / b : ℤ) : ℚ) = ((a % b : ℤ) : ℚ) / (b:ℚ) := by
    field_simp
    linarith
  have h1 : ((a % b : ℤ) : ℚ) / (b:ℚ) < 1/2 ↔ 2 * (a % b) < b := by
    rw [div_lt_div_iff₀ hbQ (by norm_num : (0:ℚ) < 2), one_mul,
      show ((a % b : ℤ) : ℚ) * 2 = ((a % b * 2 : ℤ) : ℚ) by push_cast; ring,
      Int.cast_lt]
    omega
  have h2 : (1:ℚ)/2 < ((a % b : ℤ) : ℚ) / (b:ℚ) ↔ b < 2 * (a % b) := by
    rw [div_lt_div_iff₀ (by norm_num : (0:ℚ) < 2) hbQ, one_mul,
      show ((a % b : ℤ) : ℚ) * 2 = ((a % b * 2 : ℤ) : ℚ) by push_cast; ring,
      Int.cast_lt]
    omega
  simp only [roundHalfEvenZ, rdivHE, hfloor, hval, h1, h2]

/-- The integer half-up division agrees with mathematical half-up
rounding of the exact quotient. -/
theorem rdivHU_eq_roundHalfUpZ (a : ℤ) {b : ℤ} (hb : 0 < b) :
    rdivHU a b = roundHalfUpZ ((a : ℚ) / (b : ℚ)) := by
  have hbQ : (0:ℚ) < (b : ℚ) := by exact_mod_cast hb
  have hsign : 0 ≤ (a:ℚ) / (b:ℚ) ↔ 0 ≤ a := by
    rw [le_div_iff₀ hbQ, zero_mul]
    exact Int.cast_nonneg
  have hpos : ∀ c : ℤ, (c:ℚ)/(b:ℚ) + 1/2 = ((2 * c + b : ℤ) : ℚ) / ((2 * b : ℤ) : ℚ) := by
    intro c
    push_cast
    field_simp
    ring
  have hfl : ∀ c : ℤ, ⌊(c:ℚ)/(b:ℚ) + 1/2⌋ = (2 * c + b) / (2 * b) := by
    intro c
    rw [hpos c]
    exact floor_intCast_div (by omega)
  have hneg : -((a:ℚ)/(b:ℚ)) = ((-a : ℤ):ℚ)/(b:ℚ) := by
    push_cast
    ring
  simp only [roundHalfUpZ, rdivHU, hsign, hneg, hfl]

/-- Rounding division of an exact multiple is exact (half-even form):
this is why the ledger's bare `.quantize` calls never actually round —
the products they quantize are already on the target grid. -/
theorem rdivHE_of_dvd {a b : ℤ} (hb : 0 < b) (h : b ∣ a) : rdivHE a b = a / b := by
  obtain ⟨c, rfl⟩ := h
  have hc : (((b * c) : ℤ) : ℚ) / (b : ℚ) = ((c : ℤ) : ℚ) := by
    push_cast
    field_simp
  rw [rdivHE_eq_roundHalfEvenZ _ hb, hc, roundHalfEvenZ_intCast,
    Int.mul_ediv_cancel_left _ (by omega)]

/-- Rounding division of an exact multiple is exact (half-up form). -/
theorem rdivHU_of_dvd {a b : ℤ} (hb : 0 < b) (h : b ∣ a) : rdivHU a b = a / b := by
  obtain ⟨c, rfl⟩ := h
  have hc : (((b * c) : ℤ) : ℚ) / (b : ℚ) = ((c : ℤ) : ℚ) := by
    push_cast
    field_simp
  rw [rdivHU_eq_roundHalfUpZ _ hb, hc, roundHalfUpZ_intCast,
    Int.mul_ediv_cancel_left _ (by omega)]

/-- The BOM-distinctness conjunct of `WFStore`, for an arbitrary
product id: a product absent from the BOM table has an empty recipe. -/
theorem WFStore.bom_nodup {s : Store} (h : WFStore s) (pid : ℕ) :
    ((bomFor s pid).map BillOfMaterial.material_id).Nodup := by
  by_cases hb : ∃ b ∈ s.boms, b.product_id = pid
  · obtain ⟨b, hbm, rfl⟩ := hb
    exact h.2.2.2.2 b hbm
  · have hnil : bomFor s pid = [] := by
      rw [bomFor, List.filter_eq_nil_iff]
      intro b hbm
      simp only [beq_iff_eq]
      exact fun hc => hb ⟨b, hbm, hc⟩
    simp [hnil]

/-! ## Helper lemmas: keyed row updates -/

theorem find?_key_eq {α : Type} (key : α → ℕ) {l : List α} {k : ℕ} {a : α}
    (h : l.find? (fun x => key x == k) = some a) : key a = k := by
  have := List.find?_some h
  simpa using this

theorem find?_update_self {α : Type} (f : α → α) (key : α → ℕ)
    (hk : ∀ x, key (f x) = key x) {l : List α} {k : ℕ} {a : α}
    (h : l.find? (fun x => key x == k) = some a) :
    (l.map (fun x => if key x == k then f x else x)).find? (fun x => key x == k)
      = some (f a) := by
  induction l with
  | nil => simp at h
  | cons x t ih =>
    by_cases hx : key x = k
    · rw [List.find?_cons_of_pos _ (by simpa using hx)] at h
      cases h
      have hhd : (if (key a == k) = true then f a else a) = f a := by simp [hx]
      simp only [List.map_cons, hhd]
      rw [List.find?_cons_of_pos _ (by simp [hk, hx])]
    · rw [List.find?_cons_of_neg _ (by simpa using hx)] at h
      have hhd : (if (key x == k) = true then f x else x) = x := by simp [hx]
      simp only [List.map_cons, hhd]
      rw [List.find?_cons_of_neg _ (by simpa using hx)]
      exact ih h

theorem find?_update_ne {α : Type} (f : α → α) (key : α → ℕ)
    (hk : ∀ x, key (f x) = key x) (l : List α) {k k' : ℕ} (hne : k ≠ k') :
    (l.map (fun x => if key x == k' then f x else x)).find? (fun x => key x == k)
      = l.find? (fun x => key x == k) := by
  induction l with
  | nil => simp
  | cons x t ih =>
    by_cases hx' : key x = k'
    · have hxk : ¬ key x = k := fun hc => hne (by rw [← hc, hx'])
      have hhd : (if (key x == k') = true then f x else x) = f x := by simp [hx']
      simp only [List.map_cons, hhd]
      rw [List.find?_cons_of_neg _ (by simp [hk, hxk]),
        List.find?_cons_of_neg _ (by simpa using hxk)]
      exact ih
    · have hhd : (if (key x == k') = true then f x else x) = x := by simp [hx']
      simp only [List.map_cons, hhd]
      by_cases hxk : key x = k
      · rw [List.find?_cons_of_pos _ (by simpa using hxk),
          List.find?_cons_of_pos _ (by simpa using hxk)]
      · rw [List.find?_cons_of_neg _ (by simpa using hxk),
          List.find?_cons_of_neg _ (by simpa using hxk)]
        exact ih

theorem map_key_update {α : Type} (f : α → α) (key : α → ℕ)
    (hk : ∀ x, key (f x) = key x) (l : List α) (k : ℕ) :
    (l.map (fun x => if key x == k then f x else x)).map key = l.map key := by
  induction l with
  | nil => simp
  | cons x t ih =>
    simp only [List.map_cons, ih, List.cons.injEq, and_true]
    split <;> simp [hk]

theorem mem_update {α : Type} (f : α → α) (key : α → ℕ) {l : List α} {k : ℕ} {y : α}
    (hy : y ∈ l.map (fun x => if key x == k then f x else x)) :
    (∃ x ∈ l, y = f x) ∨ y ∈ l := by
  obtain ⟨x, hx, hxy⟩ := List.mem_map.mp hy
  by_cases h : key x = k
  · exact .inl ⟨x, hx, by rw [← hxy, if_pos (by simpa using h)]⟩
  · right
    rw [← hxy, if_neg (by simpa using h)]
    exact hx

/-! ### Setter facts -/

theorem findMaterial_id {s : Store} {mid : ℕ} {m : Material}
    (h : findMaterial s mid = some m) : m.id = mid :=
  find?_key_eq Material.id h

theorem findProduct_id {s : Store} {pid : ℕ} {p : Product}
    (h : findProduct s pid = some p) : p.id = pid :=
  find?_key_eq Product.id h

theorem findMaterial_set_self {s : Store} {mid : ℕ} (v : ℤ) {m : Material}
    (h : findMaterial s mid = some m) :
    findMaterial (setMaterialStock s mid v) mid = some { m with stock := v } := by
  exact find?_update_self (fun x => ({ x with stock := v } : Material)) Material.id
    (fun _ => rfl) h

theorem findMaterial_set_ne {s : Store} {mid mid' : ℕ} (v : ℤ) (hne : mid ≠ mid') :
    findMaterial (setMaterialStock s mid' v) mid = findMaterial s mid := by
  exact find?_update_ne (fun x => ({ x with stock := v } : Material)) Material.id
    (fun _ => rfl) s.materials hne

theorem findProduct_set_self {s : Store} {pid : ℕ} (v : ℤ) {p : Product}
    (h : findProduct s pid = some p) :
    findProduct (setProductStock s pid v) pid = some { p with stock := v } := by
  exact find?_update_self (fun x => ({ x with stock := v } : Product)) Product.id
    (fun _ => rfl) h

theorem findProduct_set_ne {s : Store} {pid pid' : ℕ} (v : ℤ) (hne : pid ≠ pid') :
    findProduct (setProductStock s pid' v) pid = findProduct s pid := by
  exact find?_update_ne (fun x => ({ x with stock := v } : Product)) Product.id
    (fun _ => rfl) s.products hne

/-- Inversion for a successful check loop: the snapshots correspond to
the BOM lines one-to-one and in order, and the lock trace is one
material lock per snapshot, in the same order. -/
theorem checkBom_ok {s : Store} {qty : ℤ} :
    ∀ {bom : List BillOfMaterial} {l : List (Material × ℤ)} {t : List Event},
    checkBom s qty bom = (.ok l, t) →
    List.Forall₂ (ReqSnap s qty) bom l ∧
      t = l.map (fun p => Event.lockMaterial p.1.id) := by
  intro bom
  induction bom with
  | nil =>
    intro l t h
    simp only [checkBom, Prod.mk.injEq] at h
    obtain ⟨h1, h2⟩ := h
    cases h1
    exact ⟨.nil, h2.symm ▸ rfl⟩
  | cons item rest ih =>
    intro l t h
    simp only [checkBom] at h
    cases hfm : findMaterial s item.material_id with
    | none => rw [hfm] at h; simp at h
    | some mat =>
      rw [hfm] at h
      cases hcb : (checkBom s qty rest).1 with
      | error e => rw [hcb] at h; simp at h
      | ok l' =>
        rw [hcb] at h
        simp only [Prod.mk.injEq, Except.ok.injEq] at h
        obtain ⟨h1, h2⟩ := h
        obtain ⟨hf, htr⟩ := ih (l := l') (t := (checkBom s qty rest).2)
          (Prod.ext hcb rfl)
        subst h1
        refine ⟨.cons ⟨hfm, rfl⟩ hf, ?_⟩
        simp [← h2, htr]

/-- When every BOM line's material exists, the check loop succeeds. -/
theorem checkBom_isOk (s : Store) (qty : ℤ) :
    ∀ {bom : List BillOfMaterial},
    (∀ item ∈ bom, (findMaterial s item.material_id).isSome) →
    ∃ l tr, checkBom s qty bom = (.ok l, tr) := by
  intro bom
  induction bom with
  | nil => exact fun _ => ⟨[], [], rfl⟩
  | cons item rest ih =>
    intro hall
    obtain ⟨mat, hfm⟩ := Option.isSome_iff_exists.mp (hall item (by simp))
    obtain ⟨l, tr, hcb⟩ := ih (fun i hi => hall i (by simp [hi]))
    refine ⟨(mat, requiredAmount item.qty_per_one qty) :: l,
      .lockMaterial mat.id :: (checkBom s qty rest).2, ?_⟩
    simp only [checkBom, hfm]
    rw [show (checkBom s qty rest).1 = .ok l from congrArg Prod.fst hcb]

theorem forall2_right_mem {α β : Type} {R : α → β → Prop} :
    ∀ {as : List α} {bs : List β}, List.Forall₂ R as bs →
      ∀ {b : β}, b ∈ bs → ∃ a ∈ as, R a b := by
  intro as bs h
  induction h with
  | nil => intro b hb; simp at hb
  | cons hR _ ih =>
    intro b hb
    rcases List.mem_cons.mp hb with rfl | hb'
    · exact ⟨_, by simp, hR⟩
    · obtain ⟨a, ha, hab⟩ := ih hb'
      exact ⟨a, by simp [ha], hab⟩

/-- The snapshots carry exactly the BOM's material ids, in order. -/
theorem checkBom_ids {s : Store} {qty : ℤ} {bom : List BillOfMaterial}
    {l : List (Material × ℤ)} (h : List.Forall₂ (ReqSnap s qty) bom l) :
    l.map (fun p => p.1.id) = bom.map BillOfMaterial.material_id := by
  induction h with
  | nil => rfl
  | cons hR _ ih =>
    simp only [List.map_cons, ih, List.cons.injEq, and_true]
    exact findMaterial_id hR.1

/-- An empty shortage list means no snapshot is short. -/
theorem shortfalls_eq_nil {l : List (Material × ℤ)} (h : shortfalls l = []) :
    ∀ p ∈ l, p.2 ≤ p.1.stock := by
  intro p hp
  rw [shortfalls] at h
  have hfil := List.map_eq_nil_iff.mp h
  have hnp := List.filter_eq_nil_iff.mp hfil p hp
  exact Int.not_lt.mp (by simpa using hnp)

/-! ## Characterizing the mutation loop -/

/-- The mutation loop touches only material stocks and the movement
log: every other table is untouched, and the movements appended are one
OUT per snapshot, in order. -/
theorem applyDebits_tables (s : Store) (l : List (Material × ℤ)) :
    (applyDebits s l).1.products = s.products ∧
    (applyDebits s l).1.boms = s.boms ∧
    (applyDebits s l).1.batches = s.batches ∧
    (applyDebits s l).1.operations = s.operations ∧
    (applyDebits s l).1.movements = s.movements ++
      l.map (fun p => (⟨.out, p.2, some p.1.id, none⟩ : StockMovement)) := by
  induction l generalizing s with
  | nil => simp [applyDebits]
  | cons p rest ih =>
    obtain ⟨h1, h2, h3, h4, h5⟩ := ih
      { setMaterialStock s p.1.id (p.1.stock - p.2) with movements :=
          (setMaterialStock s p.1.id (p.1.stock - p.2)).movements ++
            [⟨.out, p.2, some p.1.id, none⟩] }
    refine ⟨h1, h2, h3, h4, ?_⟩
    rw [applyDebits, h5]
    simp [setMaterialStock]

/-- The mutation loop preserves the material id column. -/
theorem applyDebits_ids (s : Store) (l : List (Material × ℤ)) :
    (applyDebits s l).1.materials.map Material.id = s.materials.map Material.id := by
  induction l generalizing s with
  | nil => simp [applyDebits]
  | cons p rest ih =>
    rw [applyDebits]
    rw [ih]
    exact map_key_update (fun x => ({ x with stock := p.1.stock - p.2 } : Material))
      Material.id (fun _ => rfl) s.materials p.1.id

/-! ## Ledger-sum helpers -/

theorem matLedgerList_append (A B : List StockMovement) (mid : ℕ) :
    matLedgerList (A ++ B) mid = matLedgerList A mid + matLedgerList B mid := by
  simp [matLedgerList, List.filter_append]

theorem prodLedgerList_append (A B : List StockMovement) (pid : ℕ) :
    prodLedgerList (A ++ B) pid = prodLedgerList A pid + prodLedgerList B pid := by
  simp [prodLedgerList, List.filter_append]

theorem matLedgerList_single (mv : StockMovement) (mid : ℕ) :
    matLedgerList [mv] mid = if mv.material == some mid then signedQty mv else 0 := by
  by_cases h : mv.material == some mid <;> simp [matLedgerList, h]

theorem prodLedgerList_single (mv : StockMovement) (pid : ℕ) :
    prodLedgerList [mv] pid = if mv.product == some pid then signedQty mv else 0 := by
  by_cases h : mv.product == some pid <;> simp [prodLedgerList, h]

theorem matLedgerList_none {B : List StockMovement}
    (h : ∀ mv ∈ B, mv.material = none) (mid : ℕ) : matLedgerList B mid = 0 := by
  have hfil : B.filter (fun mv => mv.material == some mid) = [] :=
    List.filter_eq_nil_iff.mpr (fun mv hmv => by simp [h mv hmv])
  simp [matLedgerList, hfil]

theorem prodLedgerList_none {B : List StockMovement}
    (h : ∀ mv ∈ B, mv.product = none) (pid : ℕ) : prodLedgerList B pid = 0 := by
  have hfil : B.filter (fun mv => mv.product == some pid) = [] :=
    List.filter_eq_nil_iff.mpr (fun mv hmv => by simp [h mv hmv])
  simp [prodLedgerList, hfil]

theorem materialLedger_append_one (s1 : Store) (mv : StockMovement) (mid : ℕ) :
    materialLedger { s1 with movements := s1.movements ++ [mv] } mid =
      materialLedger s1 mid +
        (if mv.material == some mid then signedQty mv else 0) := by
  rw [materialLedger, materialLedger]
  show matLedgerList (s1.movements ++ [mv]) mid = _
  rw [matLedgerList_append, matLedgerList_single]

theorem productLedger_append_one (s1 : Store) (mv : StockMovement) (pid : ℕ) :
    productLedger { s1 with movements := s1.movements ++ [mv] } pid =
      productLedger s1 pid +
        (if mv.product == some pid then signedQty mv else 0) := by
  rw [productLedger, productLedger]
  show prodLedgerList (s1.movements ++ [mv]) pid = _
  rw [prodLedgerList_append, prodLedgerList_single]

/-- The mutation loop conserves stock-minus-ledger for every material:
each debit is mirrored by exactly one OUT movement of the same
quantity.  Needs the snapshots to be accurate (each pair is the stored
row) and the debited ids distinct — both supplied by the check loop
under the BOM unique constraint. -/
theorem applyDebits_conserve :
    ∀ {l : List (Material × ℤ)} {s : Store},
    (∀ p ∈ l, findMaterial s p.1.id = some p.1) →
    (l.map (fun p => p.1.id)).Nodup →
    ∀ mid, matStock (applyDebits s l).1 mid - materialLedger (applyDebits s l).1 mid =
      matStock s mid - materialLedger s mid := by
  intro l
  induction l with
  | nil => intro s _ _ mid; rfl
  | cons p rest ih =>
    intro s hfind hnd mid
    have hhd : findMaterial s p.1.id = some p.1 := hfind p (by simp)
    have hne_rest : ∀ p' ∈ rest, p'.1.id ≠ p.1.id := by
      intro p' hp' hc
      have hmem : p.1.id ∈ rest.map (fun q => q.1.id) := by
        rw [← hc]
        exact List.mem_map_of_mem _ hp'
      exact (List.nodup_cons.mp hnd).1 hmem
    set s1 := setMaterialStock s p.1.id (p.1.stock - p.2) with hs1
    set s2 : Store := { s1 with movements :=
        s1.movements ++ [⟨.out, p.2, some p.1.id, none⟩] } with hs2
    have happ : (applyDebits s (p :: rest)).1 = (applyDebits s2 rest).1 := rfl
    have hfind2 : ∀ p' ∈ rest, findMaterial s2 p'.1.id = some p'.1 := by
      intro p' hp'
      have he : findMaterial s2 p'.1.id = findMaterial s1 p'.1.id := rfl
      rw [he, hs1, findMaterial_set_ne _ (hne_rest p' hp')]
      exact hfind p' (by simp [hp'])
    have hih := ih hfind2 (List.nodup_cons.mp hnd).2 mid
    rw [happ, hih]
    have hledS1 : materialLedger s1 mid = materialLedger s mid := rfl
    have hled2 : materialLedger s2 mid = materialLedger s mid +
        (if (some p.1.id : Option ℕ) == some mid then
          signedQty ⟨.out, p.2, some p.1.id, none⟩ else 0) := by
      rw [hs2, materialLedger_append_one, hledS1]
    by_cases hmid : p.1.id = mid
    · subst hmid
      have hst1 : matStock s2 p.1.id = p.1.stock - p.2 := by
        have he : findMaterial s2 p.1.id = findMaterial s1 p.1.id := rfl
        simp only [matStock, he, hs1]
        rw [findMaterial_set_self _ hhd]
        rfl
      have hst0 : matStock s p.1.id = p.1.stock := by
        simp only [matStock, hhd]
        rfl
      rw [hst1, hst0, hled2]
      simp [signedQty]
      ring
    · have hst2 : matStock s2 mid = matStock s mid := by
        have he : findMaterial s2 mid = findMaterial s1 mid := rfl
        simp only [matStock, he, hs1]
        rw [findMaterial_set_ne _ (fun hc => hmid hc.symm)]
      have hbeq : ((some p.1.id : Option ℕ) == some mid) = false := by
        simp [hmid]
      rw [hst2, hled2, hbeq]
      simp

/-- The mutation loop's debits leave every stock non-negative, given
accurate non-negative inputs and shortage-free snapshots. -/
theorem applyDebits_nonneg :
    ∀ {l : List (Material × ℤ)} {s : Store},
    (∀ m ∈ s.materials, 0 ≤ m.stock) →
    (∀ p ∈ l, 0 ≤ p.1.stock - p.2) →
    ∀ m ∈ (applyDebits s l).1.materials, 0 ≤ m.stock := by
  intro l
  induction l with
  | nil => intro s hs _ m hm; exact hs m hm
  | cons p rest ih =>
    intro s hs hl m hm
    refine ih ?_ (fun p' hp' => hl p' (by simp [hp'])) m hm
    intro m' hm'
    rcases mem_update (fun x => ({ x with stock := p.1.stock - p.2 } : Material))
      Material.id hm' with ⟨x, _, rfl⟩ | hmem
    · exact hl p (by simp)
    · exact hs m' hmem

/-! ## Inversion of the engine's success paths -/

theorem productionSave_ok_inv {s : Store} {e pid : ℕ} {b : Option ℕ} {qty : ℤ}
    {s' : Store} (h : productionSave s e pid b qty = .ok s') :
    ∃ product requiredMap,
      (0 < qty ∧ qty % 1000 = 0) ∧
      findProduct s pid = some product ∧
      (bomFor s pid).isEmpty = false ∧
      (checkBom s qty (bomFor s pid)).1 = .ok requiredMap ∧
      shortfalls requiredMap = [] ∧
      s' = prodFinish s e pid b qty product requiredMap := by
  simp only [productionSave, productionSaveT] at h
  split at h
  · simp at h
  next hq =>
    split at h
    · simp at h
    next product hfp =>
      split at h
      · simp at h
      next hbe =>
        split at h
        next err hcb => simp at h
        next requiredMap hcb =>
          split at h
          · simp at h
          next hsf =>
            refine ⟨product, requiredMap, not_not.mp hq, hfp,
              by simpa using hbe, hcb, not_not.mp hsf, ?_⟩
            simpa using h.symm

theorem adjustmentSave_ok_material_inv {s : Store} {m : ℕ} {pid : Option ℕ}
    {mt : MovementType} {qty : ℤ} {s' : Store}
    (h : adjustmentSave s .material (some m) pid mt qty = .ok s') :
    ∃ mat, 0 < qty ∧ pid = none ∧ findMaterial s m = some mat ∧
      ¬(mt = .out ∧ mat.stock < qty) ∧ s' = adjFinishM s m mat mt qty := by
  simp only [adjustmentSave] at h
  split at h
  · simp at h
  next hq =>
    cases pid with
    | some p => simp at h
    | none =>
      cases hfm : findMaterial s m with
      | none => simp [hfm] at h
      | some mat =>
        simp only [hfm] at h
        split at h
        · simp at h
        next hout =>
          exact ⟨mat, not_not.mp hq, rfl, rfl, hout, by simpa using h.symm⟩

theorem adjustmentSave_ok_product_inv {s : Store} {p : ℕ} {mid : Option ℕ}
    {mt : MovementType} {qty : ℤ} {s' : Store}
    (h : adjustmentSave s .product mid (some p) mt qty = .ok s') :
    ∃ prod, 0 < qty ∧ mid = none ∧ findProduct s p = some prod ∧
      ¬(mt = .out ∧ prod.stock < qty) ∧ s' = adjFinishP s p prod mt qty := by
  simp only [adjustmentSave] at h
  split at h
  · simp at h
  next hq =>
    cases mid with
    | some m => simp at h
    | none =>
      cases hfp : findProduct s p with
      | none => simp [hfp] at h
      | some prod =>
        simp only [hfp] at h
        split at h
        · simp at h
        next hout =>
          exact ⟨prod, not_not.mp hq, rfl, rfl, hout, by simpa using h.symm⟩

/-- A successful adjustment always names exactly one target. -/
theorem adjustmentSave_ok_inv {s : Store} {target : AdjTarget} {mid pid : Option ℕ}
    {mt : MovementType} {qty : ℤ} {s' : Store}
    (h : adjustmentSave s target mid pid mt qty = .ok s') :
    (∃ m mat, target = .material ∧ mid = some m ∧ pid = none ∧
      findMaterial s m = some mat ∧ ¬(mt = .out ∧ mat.stock < qty) ∧ 0 < qty ∧
      s' = adjFinishM s m mat mt qty) ∨
    (∃ p prod, target = .product ∧ mid = none ∧ pid = some p ∧
      findProduct s p = some prod ∧ ¬(mt = .out ∧ prod.stock < qty) ∧ 0 < qty ∧
      s' = adjFinishP s p prod mt qty) := by
  cases target with
  | material =>
    cases mid with
    | none =>
      exfalso
      simp only [adjustmentSave] at h
      split at h <;> simp at h
    | some m =>
      obtain ⟨mat, hq, hpid, hfm, hout, hs'⟩ := adjustmentSave_ok_material_inv h
      exact .inl ⟨m, mat, rfl, rfl, hpid, hfm, hout, hq, hs'⟩
  | product =>
    cases pid with
    | none =>
      exfalso
      simp only [adjustmentSave] at h
      split at h
      · simp at h
      · cases mid <;> simp at h
    | some p =>
      obtain ⟨prod, hq, hmid, hfp, hout, hs'⟩ := adjustmentSave_ok_product_inv h
      exact .inr ⟨p, prod, rfl, hmid, rfl, hfp, hout, hq, hs'⟩

/-! ## Congruence helpers: each accessor only reads one column -/

theorem findMaterial_congr {s t : Store} (h : t.materials = s.materials) (mid : ℕ) :
    findMaterial t mid = findMaterial s mid := by
  rw [findMaterial, findMaterial, h]

theorem findProduct_congr {s t : Store} (h : t.products = s.products) (pid : ℕ) :
    findProduct t pid = findProduct s pid := by
  rw [findProduct, findProduct, h]

theorem bomFor_congr {s t : Store} (h : t.boms = s.boms) (pid : ℕ) :
    bomFor t pid = bomFor s pid := by
  rw [bomFor, bomFor, h]

theorem matStock_congr {s t : Store} (h : t.materials = s.materials) (mid : ℕ) :
    matStock t mid = matStock s mid := by
  rw [matStock, matStock, findMaterial_congr h]

theorem prodStock_congr {s t : Store} (h : t.products = s.products) (pid : ℕ) :
    prodStock t pid = prodStock s pid := by
  rw [prodStock, prodStock, findProduct_congr h]

theorem materialLedger_congr {s t : Store} (h : t.movements = s.movements) (mid : ℕ) :
    materialLedger t mid = materialLedger s mid := by
  rw [materialLedger, materialLedger, h]

theorem productLedger_congr {s t : Store} (h : t.movements = s.movements) (pid : ℕ) :
    productLedger t pid = productLedger s pid := by
  rw [productLedger, productLedger, h]

theorem productLedger_append_none (s1 : Store) {L : List StockMovement}
    (hL : ∀ mv ∈ L, mv.product = none) (pid : ℕ) :
    productLedger { s1 with movements := s1.movements ++ L } pid =
      productLedger s1 pid := by
  rw [productLedger, productLedger]
  show prodLedgerList (s1.movements ++ L) pid = _
  rw [prodLedgerList_append, prodLedgerList_none hL, add_zero]

theorem materialLedger_append_none (s1 : Store) {L : List StockMovement}
    (hL : ∀ mv ∈ L, mv.material = none) (mid : ℕ) :
    materialLedger { s1 with movements := s1.movements ++ L } mid =
      materialLedger s1 mid := by
  rw [materialLedger, materialLedger]
  show matLedgerList (s1.movements ++ L) mid = _
  rw [matLedgerList_append, matLedgerList_none hL, add_zero]

/-! ## Per-operation conservation -/

/-- Stock-minus-ledger is invariant across one engine invocation, for
every material and every product: each successful mutation writes a
movement of exactly the applied delta, and failures change nothing. -/
theorem applyOp_conserve {s : Store} (hWF : WFStore s) (op : LedgerOp) :
    (∀ mid, matStock (applyOp s op) mid - materialLedger (applyOp s op) mid
       = matStock s mid - materialLedger s mid) ∧
    (∀ pid, prodStock (applyOp s op) pid - productLedger (applyOp s op) pid
       = prodStock s pid - productLedger s pid) := by
  cases op with
  | production e pid b q =>
    cases hps : productionSave s e pid b q with
    | error err => simp [applyOp, hps]
    | ok s' =>
      simp only [applyOp, hps]
      obtain ⟨product, reqMap, hq, hfp, _, hcb, hsf, hs'⟩ := productionSave_ok_inv hps
      obtain ⟨hf2, _⟩ := checkBom_ok (l := reqMap)
        (t := (checkBom s q (bomFor s pid)).2) (Prod.ext hcb rfl)
      have hfind : ∀ p ∈ reqMap, findMaterial s p.1.id = some p.1 := by
        intro p hp
        obtain ⟨item, _, hsnap⟩ := forall2_right_mem hf2 hp
        have hid := findMaterial_id hsnap.1
        rw [hid]
        exact hsnap.1
      have hnd : (reqMap.map (fun p => p.1.id)).Nodup := by
        rw [checkBom_ids hf2]
        exact hWF.bom_nodup pid
      obtain ⟨hprods, hboms, hbat, hops, hmov⟩ := applyDebits_tables s reqMap
      constructor
      · intro mid
        have hm : matStock (prodFinish s e pid b q product reqMap) mid =
            matStock (applyDebits s reqMap).1 mid := matStock_congr rfl mid
        have hl : materialLedger (prodFinish s e pid b q product reqMap) mid =
            materialLedger (applyDebits s reqMap).1 mid := by
          show matLedgerList ((applyDebits s reqMap).1.movements ++
            [⟨.in_, q, none, some pid⟩]) mid = _
          rw [matLedgerList_append,
            matLedgerList_none (B := [⟨.in_, q, none, some pid⟩]) (by simp), add_zero]
          rfl
        rw [hs', hm, hl]
        exact applyDebits_conserve hfind hnd mid
      · intro pid'
        have hps2 : prodStock (prodFinish s e pid b q product reqMap) pid' =
            prodStock (setProductStock (applyDebits s reqMap).1 pid
              (product.stock + q)) pid' := prodStock_congr rfl pid'
        have hplD : productLedger (applyDebits s reqMap).1 pid' =
            productLedger s pid' := by
          rw [productLedger, productLedger, hmov, prodLedgerList_append,
            prodLedgerList_none (B := reqMap.map
              (fun pp => (⟨.out, pp.2, some pp.1.id, none⟩ : StockMovement)))
              (by intro mv hmv; obtain ⟨pp, _, rfl⟩ := List.mem_map.mp hmv; rfl),
            add_zero]
        have hl : productLedger (prodFinish s e pid b q product reqMap) pid' =
            productLedger s pid' +
              (if (some pid : Option ℕ) == some pid' then q else 0) := by
          show prodLedgerList ((applyDebits s reqMap).1.movements ++
            [⟨.in_, q, none, some pid⟩]) pid' = _
          rw [prodLedgerList_append, prodLedgerList_single]
          have hfold : prodLedgerList (applyDebits s reqMap).1.movements pid' =
              productLedger (applyDebits s reqMap).1 pid' := rfl
          rw [hfold, hplD]
          rfl
        by_cases hp' : pid = pid'
        · subst hp'
          have hfpD : findProduct (applyDebits s reqMap).1 pid = some product := by
            rw [findProduct_congr hprods]
            exact hfp
          have hst : prodStock (setProductStock (applyDebits s reqMap).1 pid
              (product.stock + q)) pid = product.stock + q := by
            rw [prodStock, findProduct_set_self _ hfpD]
            rfl
          have hst0 : prodStock s pid = product.stock := by
            rw [prodStock, hfp]
            rfl
          rw [hs', hps2, hst, hl, hst0]
          simp
        · have hst : prodStock (setProductStock (applyDebits s reqMap).1 pid
              (product.stock + q)) pid' = prodStock s pid' := by
            rw [prodStock, findProduct_set_ne _ (fun hc => hp' hc.symm),
              findProduct_congr hprods]
            rfl
          have hbeq : ((some pid : Option ℕ) == some pid') = false := by
            simp [hp']
          rw [hs', hps2, hst, hl, hbeq]
          simp
  | adjustment t m p mt q =>
    cases hadj : adjustmentSave s t m p mt q with
    | error err => simp [applyOp, hadj]
    | ok s' =>
      simp only [applyOp, hadj]
      rcases adjustmentSave_ok_inv hadj with
        ⟨mm, mat, _, _, _, hfm, hout, hq, hs'⟩ | ⟨pp, prod, _, _, _, hfp, hout, hq, hs'⟩
      · constructor
        · intro mid
          have hl : materialLedger (adjFinishM s mm mat mt q) mid =
              materialLedger s mid +
                (if (some mm : Option ℕ) == some mid then
                  signedQty ⟨mt, q, some mm, none⟩ else 0) := by
            show matLedgerList (s.movements ++ [⟨mt, q, some mm, none⟩]) mid = _
            rw [matLedgerList_append, matLedgerList_single]
            rfl
          by_cases hmid : mm = mid
          · subst hmid
            have hst : matStock (adjFinishM s mm mat mt q) mm =
                (if mt = .in_ then mat.stock + q else mat.stock - q) := by
              have he : findMaterial (adjFinishM s mm mat mt q) mm =
                  findMaterial (setMaterialStock s mm
                    (if mt = .in_ then mat.stock + q else mat.stock - q)) mm := rfl
              rw [matStock, he, findMaterial_set_self _ hfm]
              rfl
            have hst0 : matStock s mm = mat.stock := by
              rw [matStock, hfm]
              rfl
            rw [hs', hst, hl, hst0]
            cases mt <;> (simp [signedQty]; try ring)
          · have hst : matStock (adjFinishM s mm mat mt q) mid = matStock s mid := by
              have he : findMaterial (adjFinishM s mm mat mt q) mid =
                  findMaterial (setMaterialStock s mm
                    (if mt = .in_ then mat.stock + q else mat.stock - q)) mid := rfl
              rw [matStock, he, findMaterial_set_ne _ (fun hc => hmid hc.symm)]
              rfl
            have hbeq : ((some mm : Option ℕ) == some mid) = false := by
              simp [hmid]
            rw [hs', hst, hl, hbeq]
            simp
        · intro pid'
          have hst : prodStock (adjFinishM s mm mat mt q) pid' = prodStock s pid' :=
            prodStock_congr rfl pid'
          have hl : productLedger (adjFinishM s mm mat mt q) pid' =
              productLedger s pid' := by
            show prodLedgerList (s.movements ++ [⟨mt, q, some mm, none⟩]) pid' = _
            rw [prodLedgerList_append,
              prodLedgerList_none (B := [⟨mt, q, some mm, none⟩]) (by simp), add_zero]
            rfl
          rw [hs', hst, hl]
      · constructor
        · intro mid
          have hst : matStock (adjFinishP s pp prod mt q) mid = matStock s mid :=
            matStock_congr rfl mid
          have hl : materialLedger (adjFinishP s pp prod mt q) mid =
              materialLedger s mid := by
            show matLedgerList (s.movements ++ [⟨mt, q, none, some pp⟩]) mid = _
            rw [matLedgerList_append,
              matLedgerList_none (B := [⟨mt, q, none, some pp⟩]) (by simp), add_zero]
            rfl
          rw [hs', hst, hl]
        · intro pid'
          have hl : productLedger (adjFinishP s pp prod mt q) pid' =
              productLedger s pid' +
                (if (some pp : Option ℕ) == some pid' then
                  signedQty ⟨mt, q, none, some pp⟩ else 0) := by
            show prodLedgerList (s.movements ++ [⟨mt, q, none, some pp⟩]) pid' = _
            rw [prodLedgerList_append, prodLedgerList_single]
            rfl
          by_cases hpid : pp = pid'
          · subst hpid
            have hst : prodStock (adjFinishP s pp prod mt q) pp =
                (if mt = .in_ then prod.stock + q else prod.stock - q) := by
              have he : findProduct (adjFinishP s pp prod mt q) pp =
                  findProduct (setProductStock s pp
                    (if mt = .in_ then prod.stock + q else prod.stock - q)) pp := rfl
              rw [prodStock, he, findProduct_set_self _ hfp]
              rfl
            have hst0 : prodStock s pp = prod.stock := by
              rw [prodStock, hfp]
              rfl
            rw [hs', hst, hl, hst0]
            cases mt <;> (simp [signedQty]; try ring)
          · have hst : prodStock (adjFinishP s pp prod mt q) pid' = prodStock s pid' := by
              have he : findProduct (adjFinishP s pp prod mt q) pid' =
                  findProduct (setProductStock s pp
                    (if mt = .in_ then prod.stock + q else prod.stock - q)) pid' := rfl
              rw [prodStock, he, findProduct_set_ne _ (fun hc => hpid hc.symm)]
              rfl
            have hbeq : ((some pp : Option ℕ) == some pid') = false := by
              simp [hpid]
            rw [hs', hst, hl, hbeq]
            simp

/-- The check loop's snapshots are accurate: each is the stored row. -/
theorem reqSnap_find {s : Store} {q : ℤ} {bom : List BillOfMaterial}
    {reqMap : List (Material × ℤ)}
    (hf2 : List.Forall₂ (ReqSnap s q) bom reqMap) :
    ∀ p ∈ reqMap, findMaterial s p.1.id = some p.1 := by
  intro p hp
  obtain ⟨item, _, hsnap⟩ := forall2_right_mem hf2 hp
  have hid := findMaterial_id hsnap.1
  rw [hid]
  exact hsnap.1

/-- Well-formedness is preserved by every engine invocation: ids and
BOM structure are untouched, and the shortage/OUT guards keep every
stock non-negative. -/
theorem applyOp_WF {s : Store} (hWF : WFStore s) (op : LedgerOp) :
    WFStore (applyOp s op) := by
  obtain ⟨hmat, hprod, hmid, hpid, hbom⟩ := hWF
  cases op with
  | production e pid b q =>
    cases hps : productionSave s e pid b q with
    | error err =>
      simp only [applyOp, hps]
      exact ⟨hmat, hprod, hmid, hpid, hbom⟩
    | ok s' =>
      simp only [applyOp, hps]
      obtain ⟨product, reqMap, hq, hfp, _, hcb, hsf, hs'⟩ := productionSave_ok_inv hps
      obtain ⟨hf2, _⟩ := checkBom_ok (l := reqMap)
        (t := (checkBom s q (bomFor s pid)).2) (Prod.ext hcb rfl)
      have hfind := reqSnap_find hf2
      obtain ⟨hprods, hboms, hbat, hops, hmov⟩ := applyDebits_tables s reqMap
      have hl : ∀ p ∈ reqMap, 0 ≤ p.1.stock - p.2 :=
        fun p hp => sub_nonneg.mpr (shortfalls_eq_nil hsf p hp)
      rw [hs']
      refine ⟨?_, ?_, ?_, ?_, ?_⟩
      · intro m hm
        exact applyDebits_nonneg hmat hl m hm
      · intro p' hp'
        rcases mem_update (fun x => ({ x with stock := product.stock + q } : Product))
          Product.id hp' with ⟨x, hx, rfl⟩ | hmem
        · have h0 : 0 ≤ product.stock :=
            hprod product (List.mem_of_find?_eq_some hfp)
          have := hq.1
          simp only []
          omega
        · rw [hprods] at hmem
          exact hprod p' hmem
      · show ((applyDebits s reqMap).1.materials.map Material.id).Nodup
        rw [applyDebits_ids]
        exact hmid
      · show (((applyDebits s reqMap).1.products.map
          (fun x => if x.id == pid then { x with stock := product.stock + q } else x)).map
            Product.id).Nodup
        rw [map_key_update (fun x => ({ x with stock := product.stock + q } : Product))
          Product.id (fun _ => rfl), hprods]
        exact hpid
      · intro bb hbb
        have hsb : (prodFinish s e pid b q product reqMap).boms = s.boms := hboms
        rw [hsb] at hbb
        have hbf : bomFor (prodFinish s e pid b q product reqMap) bb.product_id =
            bomFor s bb.product_id := bomFor_congr hsb bb.product_id
        rw [hbf]
        exact hbom bb hbb
  | adjustment t m p mt q =>
    cases hadj : adjustmentSave s t m p mt q with
    | error err =>
      simp only [applyOp, hadj]
      exact ⟨hmat, hprod, hmid, hpid, hbom⟩
    | ok s' =>
      simp only [applyOp, hadj]
      rcases adjustmentSave_ok_inv hadj with
        ⟨mm, mat, _, _, _, hfm, hout, hq, hs'⟩ | ⟨pp, prod, _, _, _, hfp, hout, hq, hs'⟩
      · rw [hs']
        have hw : 0 ≤ (if mt = .in_ then mat.stock + q else mat.stock - q) := by
          have h0 : 0 ≤ mat.stock := hmat mat (List.mem_of_find?_eq_some hfm)
          cases mt with
          | in_ => simp; omega
          | out =>
            have hnl : ¬ mat.stock < q := fun hc => hout ⟨rfl, hc⟩
            simp
            omega
        refine ⟨?_, hprod, ?_, hpid, hbom⟩
        · intro m' hm'
          rcases mem_update (fun x => ({ x with stock :=
              (if mt = .in_ then mat.stock + q else mat.stock - q) } : Material))
            Material.id hm' with ⟨x, hx, rfl⟩ | hmem
          · exact hw
          · exact hmat m' hmem
        · show ((s.materials.map (fun x => if x.id == mm then
              { x with stock := (if mt = .in_ then mat.stock + q else mat.stock - q) }
              else x)).map Material.id).Nodup
          rw [map_key_update (fun x => ({ x with stock :=
            (if mt = .in_ then mat.stock + q else mat.stock - q) } : Material))
            Material.id (fun _ => rfl)]
          exact hmid
      · rw [hs']
        have hw : 0 ≤ (if mt = .in_ then prod.stock + q else prod.stock - q) := by
          have h0 : 0 ≤ prod.stock := hprod prod (List.mem_of_find?_eq_some hfp)
          cases mt with
          | in_ => simp; omega
          | out =>
            have : ¬ prod.stock < q := fun hc => hout ⟨rfl, hc⟩
            simp
            omega
        refine ⟨hmat, ?_, hmid, ?_, hbom⟩
        · intro p' hp'
          rcases mem_update (fun x => ({ x with stock :=
              (if mt = .in_ then prod.stock + q else prod.stock - q) } : Product))
            Product.id hp' with ⟨x, hx, rfl⟩ | hmem
          · exact hw
          · exact hprod p' hmem
        · show ((s.products.map (fun x => if x.id == pp then
              { x with stock := (if mt = .in_ then prod.stock + q else prod.stock - q) }
              else x)).map Product.id).Nodup
          rw [map_key_update (fun x => ({ x with stock :=
            (if mt = .in_ then prod.stock + q else prod.stock - q) } : Product))
            Product.id (fun _ => rfl)]
          exact hpid

/-- Well-formedness is preserved by any sequence of invocations. -/
theorem runOps_WF {s : Store} (hWF : WFStore s) (ops : List LedgerOp) :
    WFStore (runOps s ops) := by
  induction ops generalizing s with
  | nil => exact hWF
  | cons op rest ih => exact ih (applyOp_WF hWF op)

/-- Stock-minus-ledger is invariant across any sequence of
invocations. -/
theorem runOps_conserve {s : Store} (hWF : WFStore s) (ops : List LedgerOp) :
    (∀ mid, matStock (runOps s ops) mid - materialLedger (runOps s ops) mid
       = matStock s mid - materialLedger s mid) ∧
    (∀ pid, prodStock (runOps s ops) pid - productLedger (runOps s ops) pid
       = prodStock s pid - productLedger s pid) := by
  induction ops generalizing s with
  | nil => exact ⟨fun _ => rfl, fun _ => rfl⟩
  | cons op rest ih =>
    obtain ⟨h1, h2⟩ := applyOp_conserve hWF op
    obtain ⟨h1', h2'⟩ := ih (applyOp_WF hWF op)
    exact ⟨fun mid => (h1' mid).trans (h1 mid), fun pid => (h2' pid).trans (h2 pid)⟩

/-- Claim C2: Conservation: starting from a well-formed store with an
empty movement log, after any sequence of Record Production and Record
Adjustment invocations (failed ones roll back and write nothing), every
material's and every product's stock equals its initial stock plus the
signed sum (IN positive, OUT negative) of all `StockMovement` rows
written for it. -/
theorem conservation_of_stock (s : Store) (hWF : WFStore s)
    (hmov : s.movements = []) (ops : List LedgerOp) :
    (∀ mid, matStock (runOps s ops) mid =
      matStock s mid + materialLedger (runOps s ops) mid) ∧
    (∀ pid, prodStock (runOps s ops) pid =
      prodStock s pid + productLedger (runOps s ops) pid) := by
  obtain ⟨h1, h2⟩ := runOps_conserve hWF ops
  have hm0 : ∀ mid, materialLedger s mid = 0 := by
    intro mid
    rw [materialLedger, hmov]
    rfl
  have hp0 : ∀ pid, productLedger s pid = 0 := by
    intro pid
    rw [productLedger, hmov]
    rfl
  constructor
  · intro mid
    have h := h1 mid
    rw [hm0 mid] at h
    omega
  · intro pid
    have h := h2 pid
    rw [hp0 pid] at h
    omega

/-- Witness for C2 on the demonstration store and run: Paper ends at
10.000 − 2.500 − 3.000 = 4.500 with ledger −5.500, Gift at 5.000 +
2.000 with ledger +7.000. -/
theorem conservation_of_stock_witness :
    WFStore demoStore ∧
    matStock (runOps demoStore demoOps) 1 =
      matStock demoStore 1 + materialLedger (runOps demoStore demoOps) 1 ∧
    prodStock (runOps demoStore demoOps) 1 =
      prodStock demoStore 1 + productLedger (runOps demoStore demoOps) 1 := by
  have hWF : WFStore demoStore := by decide
  have h := conservation_of_stock demoStore hWF rfl demoOps
  exact ⟨hWF, h.1 1, h.2 1⟩

/-- Claim C7: Record Adjustment with movement type OUT: if the target's
current stock is strictly below the adjustment quantity the save fails
with `InsufficientStock` — the `Except.error` result carries no state,
modelling the transaction rollback, so neither the stock nor any
movement or adjustment row is persisted; otherwise it succeeds and the
target's stock decreases by exactly the quantity (the source applies
`stock - qty` with no re-quantization). -/
theorem adjustment_out_guard (s : Store) (m pnum : ℕ) (mat : Material)
    (prod : Product) (qty : ℤ) (hq : 0 < qty)
    (hfm : findMaterial s m = some mat) (hfp : findProduct s pnum = some prod) :
    (mat.stock < qty →
      adjustmentSave s .material (some m) none .out qty =
        .error (.insufficientStock [(mat.name, qty, mat.stock)])) ∧
    (qty ≤ mat.stock →
      adjustmentSave s .material (some m) none .out qty =
        .ok (adjFinishM s m mat .out qty) ∧
      matStock (adjFinishM s m mat .out qty) m = mat.stock - qty) ∧
    (prod.stock < qty →
      adjustmentSave s .product none (some pnum) .out qty =
        .error (.insufficientStock [(prod.name, qty, prod.stock)])) ∧
    (qty ≤ prod.stock →
      adjustmentSave s .product none (some pnum) .out qty =
        .ok (adjFinishP s pnum prod .out qty) ∧
      prodStock (adjFinishP s pnum prod .out qty) pnum = prod.stock - qty) := by
  refine ⟨?_, ?_, ?_, ?_⟩
  · intro hlt
    simp only [adjustmentSave, hfm]
    rw [if_neg (by omega), if_pos (by exact ⟨trivial, hlt⟩)]
  · intro hge
    constructor
    · simp only [adjustmentSave, hfm]
      rw [if_neg (by omega), if_neg (by push_neg; intro _; omega)]
    · have he : findMaterial (adjFinishM s m mat .out qty) m =
          findMaterial (setMaterialStock s m
            (if MovementType.out = .in_ then mat.stock + qty
             else mat.stock - qty)) m := rfl
      rw [matStock, he, findMaterial_set_self _ hfm]
      rfl
  · intro hlt
    simp only [adjustmentSave, hfp]
    rw [if_neg (by omega), if_pos (by exact ⟨trivial, hlt⟩)]
  · intro hge
    constructor
    · simp only [adjustmentSave, hfp]
      rw [if_neg (by omega), if_neg (by push_neg; intro _; omega)]
    · have he : findProduct (adjFinishP s pnum prod .out qty) pnum =
          findProduct (setProductStock s pnum
            (if MovementType.out = .in_ then prod.stock + qty
             else prod.stock - qty)) pnum := rfl
      rw [prodStock, he, findProduct_set_self _ hfp]
      rfl

/-- Witness for C7 on the demonstration store: removing 3.000 m of
Paper succeeds and leaves 7.000; removing 20.000 m fails with the
structured shortfall. -/
theorem adjustment_out_guard_witness :
    (adjustmentSave demoStore .material (some 1) none .out 20000 =
      .error (.insufficientStock [("Paper", 20000, 10000)])) ∧
    (adjustmentSave demoStore .material (some 1) none .out 3000 =
      .ok (adjFinishM demoStore 1 ⟨1, "Paper", .meter, 10000⟩ .out 3000) ∧
     matStock (adjFinishM demoStore 1 ⟨1, "Paper", .meter, 10000⟩ .out 3000) 1 =
      10000 - 3000) := by
  have h := adjustment_out_guard demoStore 1 1 ⟨1, "Paper", .meter, 10000⟩
    ⟨1, "Gift", 0, 350⟩ 20000 (by decide) (by decide) (by decide)
  have h' := adjustment_out_guard demoStore 1 1 ⟨1, "Paper", .meter, 10000⟩
    ⟨1, "Gift", 0, 350⟩ 3000 (by decide) (by decide) (by decide)
  exact ⟨h.1 (by decide), h'.2.1 (by decide)⟩

/-- Claim C8: Shift close is idempotent: a shift whose `ended_at` is
already set returns success immediately, with `ended_at` and the
stored `hours` unchanged (no recomputation). -/
theorem shift_close_idempotent (sh : Shift) (t now : ℤ)
    (h : sh.ended_at = some t) : Shift.close sh now = .ok sh := by
  rw [Shift.close, if_pos (by rw [h]; rfl)]

/-- Witness for C8: the spec's example shift (09:00–11:30, 2.50 h)
closed again at any later time is returned unchanged. -/
theorem shift_close_idempotent_witness :
    Shift.close ⟨1, 32400, some 41400, 250⟩ 99999 =
      .ok ⟨1, 32400, some 41400, 250⟩ :=
  shift_close_idempotent ⟨1, 32400, some 41400, 250⟩ 41400 99999 rfl

/-- Claim C9: Batch progress: `done` is the sum of the linked operations'
quantities (`batchDone`, 0 when there are none), and `remaining` is
`planned − done` clamped at zero — equal to `max 0 (planned − done)`,
never negative, and exactly the difference while production has not
overshot the plan. -/
theorem batch_progress_clamped (s : Store) (b : Batch) :
    batchRemaining s b = max 0 (b.planned_qty - batchDone s b.id) ∧
    0 ≤ batchRemaining s b ∧
    (batchDone s b.id ≤ b.planned_qty →
      batchRemaining s b = b.planned_qty - batchDone s b.id) ∧
    (b.planned_qty ≤ batchDone s b.id → batchRemaining s b = 0) := by
  rw [batchRemaining]
  by_cases h : b.planned_qty - batchDone s b.id < 0
  · rw [if_pos h]
    refine ⟨by omega, le_refl 0, ?_, fun _ => rfl⟩
    intro hle
    omega
  · rw [if_neg h]
    exact ⟨by omega, by omega, fun _ => rfl, fun hge => by omega⟩

/-- Witness for C9, the spec's scenario 6: plan 100, operations of 30,
50 and 30 recorded → done = 110, remaining clamps to 0. -/
theorem batch_progress_clamped_witness :
    batchDone overshootStore 1 = 110000 ∧
    batchRemaining overshootStore ⟨1, 1, 100000, .in_progress⟩ = 0 ∧
    batchRemaining overshootStore ⟨1, 1, 100000, .in_progress⟩ =
      max 0 (100000 - batchDone overshootStore 1) := by
  refine ⟨by decide, ?_, ?_⟩
  · exact (batch_progress_clamped overshootStore ⟨1, 1, 100000, .in_progress⟩).2.2.2
      (by decide)
  · exact (batch_progress_clamped overshootStore ⟨1, 1, 100000, .in_progress⟩).1

/-- Claim C10: A validated `Product` save rounds the stored 3-decimal
stock to a whole number: `Product.clean` overwrites `stock` with its
half-up whole-unit rounding (a multiple of 1000 milli-units), so any
fractional part is destroyed; a ledger write (`productionSave`, which
saves with `update_fields` and never calls `full_clean`) adds exactly
the produced quantity with no whole-unit rounding, so fractional
product stock survives it. -/
theorem product_clean_rounds_ledger_does_not :
    (∀ p : Product, (Product.clean p).stock = rdivHU p.stock 1000 * 1000 ∧
      (1000 : ℤ) ∣ (Product.clean p).stock) ∧
    (∀ (s : Store) (e pid : ℕ) (b : Option ℕ) (qty : ℤ) (s' : Store),
      productionSave s e pid b qty = .ok s' →
      prodStock s' pid = prodStock s pid + qty) := by
  constructor
  · intro p
    exact ⟨rfl, ⟨rdivHU p.stock 1000, mul_comm (rdivHU p.stock 1000) 1000⟩⟩
  · intro s e pid b qty s' hok
    obtain ⟨product, reqMap, hq, hfp, _, hcb, hsf, hs'⟩ := productionSave_ok_inv hok
    obtain ⟨hprods, _, _, _, _⟩ := applyDebits_tables s reqMap
    have hps2 : prodStock s' pid =
        prodStock (setProductStock (applyDebits s reqMap).1 pid
          (product.stock + qty)) pid := by
      rw [hs']
      exact prodStock_congr rfl pid
    have hfpD : findProduct (applyDebits s reqMap).1 pid = some product := by
      rw [findProduct_congr hprods]
      exact hfp
    have hst : prodStock (setProductStock (applyDebits s reqMap).1 pid
        (product.stock + qty)) pid = product.stock + qty := by
      rw [prodStock, findProduct_set_self _ hfpD]
      rfl
    have hst0 : prodStock s pid = product.stock := by
      rw [prodStock, hfp]
      rfl
    rw [hps2, hst, hst0]

/-- Witness for C10: a product stored at 2.400 units is cleaned to
2.000 (fraction destroyed), while producing 5 more units through the
ledger yields 7.400 (fraction preserved). -/
theorem product_clean_rounds_ledger_does_not_witness :
    (Product.clean ⟨1, "Gift", 2400, 350⟩).stock =
      rdivHU 2400 1000 * 1000 ∧
    (Product.clean ⟨1, "Gift", 2400, 350⟩).stock = 2000 ∧
    prodStock (applyOp fractionalStore (.production 7 1 none 5000)) 1 =
      prodStock fractionalStore 1 + 5000 ∧
    prodStock (applyOp fractionalStore (.production 7 1 none 5000)) 1 = 7400 := by
  refine ⟨(product_clean_rounds_ledger_does_not.1 ⟨1, "Gift", 2400, 350⟩).1,
    by decide, ?_, by decide⟩
  exact product_clean_rounds_ledger_does_not.2 fractionalStore 7 1 none 5000
    (applyOp fractionalStore (.production 7 1 none 5000)) (by decide)

theorem forall2_map_right {α β γ : Type} {R : α → β → Prop} {S : α → γ → Prop}
    (f : β → γ) (h : ∀ a b, R a b → S a (f b)) :
    ∀ {as : List α} {bs : List β},
      List.Forall₂ R as bs → List.Forall₂ S as (bs.map f) := by
  intro as bs hf
  induction hf with
  | nil => exact .nil
  | cons hR _ ih => exact .cons (h _ _ hR) ih

/-- Claim C3: Rounding in Record Production: on a successful save, the
OUT movement written for each recipe line carries exactly
`quantityPerOne × quantity` rounded to 3 decimals half-up (in
milli-units: `roundHalfUpZ` of the 10⁶-scaled product over 1000), and
the persisted operation snapshots the product's piece rate and carries
`rate × quantity` rounded to 2 decimals half-up (in centi-units:
`roundHalfUpZ` of the 10⁵-scaled product over 1000).  The source's
`.quantize` calls use ROUND_HALF_EVEN, but the operation quantity is
integral, so the products are exact at the target precision and the two
roundings coincide. -/
theorem production_rounding (s : Store) (e pid : ℕ) (b : Option ℕ) (qty : ℤ)
    (s' : Store) (hok : productionSave s e pid b qty = .ok s') :
    ∃ product outMovs,
      findProduct s pid = some product ∧
      List.Forall₂ (fun (item : BillOfMaterial) (mv : StockMovement) =>
        mv.movement_type = .out ∧ mv.material = some item.material_id ∧
        mv.qty = roundHalfUpZ (((item.qty_per_one * qty : ℤ) : ℚ) / 1000))
        (bomFor s pid) outMovs ∧
      s'.movements = s.movements ++ outMovs ++ [⟨.in_, qty, none, some pid⟩] ∧
      s'.operations = s.operations ++
        [⟨e, pid, qty, b, product.piece_rate,
          roundHalfUpZ (((product.piece_rate * qty : ℤ) : ℚ) / 1000)⟩] := by
  obtain ⟨product, reqMap, hq, hfp, _, hcb, hsf, hs'⟩ := productionSave_ok_inv hok
  obtain ⟨hf2, _⟩ := checkBom_ok (l := reqMap)
    (t := (checkBom s qty (bomFor s pid)).2) (Prod.ext hcb rfl)
  obtain ⟨hprods, hboms, hbat, hops, hmov⟩ := applyDebits_tables s reqMap
  have hdvd : (1000 : ℤ) ∣ qty := Int.dvd_of_emod_eq_zero hq.2
  have hreq : ∀ a : ℤ, rdivHE (a * qty) 1000 =
      roundHalfUpZ (((a * qty : ℤ) : ℚ) / 1000) := by
    intro a
    have hd : (1000 : ℤ) ∣ a * qty := Dvd.dvd.mul_left hdvd a
    rw [rdivHE_of_dvd (by norm_num) hd, ← rdivHU_of_dvd (by norm_num) hd,
      rdivHU_eq_roundHalfUpZ _ (by norm_num : (0:ℤ) < 1000)]
    norm_num
  refine ⟨product, reqMap.map (fun p => ⟨.out, p.2, some p.1.id, none⟩), hfp,
    ?_, ?_, ?_⟩
  · refine forall2_map_right _ ?_ hf2
    intro item p hsnap
    refine ⟨rfl, ?_, ?_⟩
    · simp only []
      rw [findMaterial_id hsnap.1]
    · show p.2 = _
      rw [hsnap.2, requiredAmount, hreq]
  · rw [hs']
    show (applyDebits s reqMap).1.movements ++ [⟨.in_, qty, none, some pid⟩] = _
    rw [hmov, List.append_assoc]
  · rw [hs']
    show (applyDebits s reqMap).1.operations ++
      [⟨e, pid, qty, b, product.piece_rate, payTotalCalc product.piece_rate qty⟩]
      = _
    rw [hops, payTotalCalc, hreq]

/-- Witness for C3 at the demonstration store: producing 5 Gifts
records an OUT of 2.500 m (0.500 × 5, half-up at 3 decimals) and a pay
total of 17.50 (3.50 × 5, half-up at 2 decimals). -/
theorem production_rounding_witness :
    productionSave demoStore 7 1 (some 1) 5000 = .ok demoAfter ∧
    (∃ product outMovs,
      findProduct demoStore 1 = some product ∧
      List.Forall₂ (fun (item : BillOfMaterial) (mv : StockMovement) =>
        mv.movement_type = .out ∧ mv.material = some item.material_id ∧
        mv.qty = roundHalfUpZ (((item.qty_per_one * 5000 : ℤ) : ℚ) / 1000))
        (bomFor demoStore 1) outMovs ∧
      demoAfter.movements = demoStore.movements ++ outMovs ++
        [⟨.in_, 5000, none, some 1⟩] ∧
      demoAfter.operations = demoStore.operations ++
        [⟨7, 1, 5000, some 1, product.piece_rate,
          roundHalfUpZ (((product.piece_rate * 5000 : ℤ) : ℚ) / 1000)⟩]) := by
  have hok : productionSave demoStore 7 1 (some 1) 5000 = .ok demoAfter := by decide
  exact ⟨hok, production_rounding demoStore 7 1 (some 1) 5000 demoAfter hok⟩

theorem shortfalls_cons (p : Material × ℤ) (lt : List (Material × ℤ)) :
    shortfalls (p :: lt) =
      (if p.1.stock < p.2 then [(p.1.name, p.2, p.1.stock)] else []) ++
        shortfalls lt := by
  by_cases h : p.1.stock < p.2 <;> simp [shortfalls, h]

theorem shortList_cons {s : Store} {qty : ℤ} {item : BillOfMaterial} {m : Material}
    (hfm : findMaterial s item.material_id = some m) (bomt : List BillOfMaterial) :
    shortList s qty (item :: bomt) =
      (if m.stock < requiredAmount item.qty_per_one qty then
        [(m.name, requiredAmount item.qty_per_one qty, m.stock)] else []) ++
      shortList s qty bomt := by
  by_cases h : m.stock < requiredAmount item.qty_per_one qty <;>
    simp [shortList, List.filterMap_cons, hfm, h]

/-- The check loop's shortage list is exactly the recipe-level shortage
report. -/
theorem shortfalls_eq_shortList {s : Store} {qty : ℤ} :
    ∀ {bom : List BillOfMaterial} {reqMap : List (Material × ℤ)},
    List.Forall₂ (ReqSnap s qty) bom reqMap →
    shortfalls reqMap = shortList s qty bom := by
  intro bom reqMap h
  induction h with
  | nil => rfl
  | @cons item p bomt lt hR _ ih =>
    obtain ⟨hfm, hreq⟩ := hR
    rw [shortfalls_cons, shortList_cons hfm, ih, hreq]

/-- Claim C5: Record Production checks every recipe line before mutating:
when the quantity is valid, the product and all recipe materials exist,
and at least one material is short, the save fails with
`InsufficientStock` carrying the full per-material shortage report
(name, required, available for every short line) — and, the error being
a rollback, no stock value or movement is written. -/
theorem production_shortage_aborts (s : Store) (e pid : ℕ) (b : Option ℕ)
    (qty : ℤ) (product : Product)
    (hq : 0 < qty ∧ qty % 1000 = 0)
    (hfp : findProduct s pid = some product)
    (hall : ∀ item ∈ bomFor s pid, (findMaterial s item.material_id).isSome)
    (hshort : shortList s qty (bomFor s pid) ≠ []) :
    productionSave s e pid b qty =
      .error (.insufficientStock (shortList s qty (bomFor s pid))) := by
  obtain ⟨l, tr, hcb⟩ := checkBom_isOk s qty hall
  obtain ⟨hf2, _⟩ := checkBom_ok hcb
  have hsl := shortfalls_eq_shortList hf2
  have hbne : (bomFor s pid).isEmpty = false := by
    cases hb : bomFor s pid with
    | nil => exact absurd (by rw [hb]; rfl) hshort
    | cons x xs => rfl
  have hcb1 : (checkBom s qty (bomFor s pid)).1 = .ok l := congrArg Prod.fst hcb
  simp only [productionSave, productionSaveT]
  rw [if_neg (not_not_intro hq)]
  simp only [hfp]
  rw [if_neg (by rw [hbne]; simp)]
  simp only [hcb1]
  rw [if_pos (by rw [hsl]; exact hshort)]
  show Except.error (LedgerError.insufficientStock (shortfalls l)) = _
  rw [hsl]

/-- Witness for C5, the spec's scenario 2 shape: 40 units need
20.000 m of Paper against 10.000 available — the save fails with the
structured shortfall `("Paper", 20.000, 10.000)`. -/
theorem production_shortage_aborts_witness :
    shortList demoStore 40000 (bomFor demoStore 1) = [("Paper", 20000, 10000)] ∧
    productionSave demoStore 7 1 (some 1) 40000 =
      .error (.insufficientStock (shortList demoStore 40000 (bomFor demoStore 1))) := by
  refine ⟨by decide, ?_⟩
  exact production_shortage_aborts demoStore 7 1 (some 1) 40000 ⟨1, "Gift", 0, 350⟩
    (by decide) (by decide) (by decide) (by decide)

/-- Claim C1, counterexample: The view `production_create` flips a
Planned batch to InProgress with its own `batch.save` *before* and
*outside* `ProductionOperation.save`'s `transaction.atomic` block, and
catches the save's `ValidationError`.  Here the save fails with
`MissingBOM`, yet the store after the attempt differs from the
original: the status flip survived, refuting "the store reflects zero
change from the failed attempt". -/
theorem production_create_not_atomic_counterexample :
    productionSave (setBatchStatus noBomStore 1 .in_progress) 0 1 (some 1) 5000 =
      .error .missingBom ∧
    production_create noBomStore 0 1 5000 ≠ noBomStore ∧
    production_create noBomStore 0 1 5000 =
      setBatchStatus noBomStore 1 .in_progress := by
  decide

/-- Claim C1, amended: `ProductionOperation.save` itself is all-or-nothing
— an error result carries no mutation (the `Except.error` models the
`transaction.atomic` rollback) — but the Planned→InProgress batch flip
is performed by the view outside that atomic unit and persists: when
the batch exists and the save fails, the resulting store is exactly the
input with only the (possibly) flipped batch status, and materials,
products, movements and operations are unchanged from the original. -/
theorem production_create_failure_flips_only_status (s : Store) (e bid : ℕ)
    (qty : ℤ) (b : Batch) (err : LedgerError)
    (hfb : findBatch s bid = some b)
    (hfail : productionSave
      (if b.status = .planned then setBatchStatus s bid .in_progress else s)
      e b.product_id (some bid) qty = .error err) :
    production_create s e bid qty =
      (if b.status = .planned then setBatchStatus s bid .in_progress else s) ∧
    (production_create s e bid qty).materials = s.materials ∧
    (production_create s e bid qty).products = s.products ∧
    (production_create s e bid qty).movements = s.movements ∧
    (production_create s e bid qty).operations = s.operations := by
  have hpc : production_create s e bid qty =
      (if b.status = .planned then setBatchStatus s bid .in_progress else s) := by
    simp only [production_create, hfb, hfail]
  refine ⟨hpc, ?_, ?_, ?_, ?_⟩ <;> rw [hpc] <;> split <;> rfl

/-- Witness for the amended C1 at the `MissingBOM` store. -/
theorem production_create_failure_flips_only_status_witness :
    production_create noBomStore 0 1 5000 =
      (if (⟨1, 1, 100000, .planned⟩ : Batch).status = .planned
       then setBatchStatus noBomStore 1 .in_progress else noBomStore) ∧
    (production_create noBomStore 0 1 5000).materials = noBomStore.materials ∧
    (production_create noBomStore 0 1 5000).products = noBomStore.products ∧
    (production_create noBomStore 0 1 5000).movements = noBomStore.movements ∧
    (production_create noBomStore 0 1 5000).operations = noBomStore.operations :=
  production_create_failure_flips_only_status noBomStore 0 1 5000
    ⟨1, 1, 100000, .planned⟩ .missingBom (by decide) (by decide)

/-- Claim C6, counterexample: A successful production debit leaves Paper
(a meter-unit material, display precision 0.01) at 7.495 — a stored
value that is *not* rounded to the unit-appropriate precision: its
half-up unit rounding is 7.50.  Ledger writes quantize to 3 decimals
only; unit-appropriate rounding happens only in `Material.clean`. -/
theorem ledger_write_not_unit_rounded_counterexample :
    findMaterial (applyOp oddStore (.production 0 1 none 5000)) 1 =
      some ⟨1, "Paper", .meter, 7495⟩ ∧
    Material.stock_display ⟨1, "Paper", .meter, 7495⟩ ≠ (7495 : ℤ) := by
  decide

/-- Quantizing at a positive step is idempotent. -/
theorem quantizeAtHU_idem {p : ℤ} (hp : 0 < p) (v : ℤ) :
    quantizeAtHU p (quantizeAtHU p v) = quantizeAtHU p v := by
  rw [quantizeAtHU, quantizeAtHU,
    rdivHU_of_dvd hp ⟨rdivHU v p, mul_comm (rdivHU v p) p⟩,
    Int.mul_ediv_cancel _ (by omega)]

/-- Stocks read out of a well-formed store are non-negative. -/
theorem matStock_nonneg {t : Store} (hWF : WFStore t) (mid : ℕ) :
    0 ≤ matStock t mid := by
  rw [matStock]
  cases hfm : findMaterial t mid with
  | none => rfl
  | some m => exact hWF.1 m (List.mem_of_find?_eq_some hfm)

/-- Claim C6, amended: An operator edit (`Material.clean`, run by every
validated save) leaves the stored stock at the unit-appropriate display
precision — cleaning is a fixpoint of the display rounding; the ledger
engine's writes keep stock at 3-decimal precision (every write is a
milli-unit integer by construction) and never drive it negative from a
well-formed store. -/
theorem material_stock_write_discipline :
    (∀ m : Material, (Material.clean m).stock_display = (Material.clean m).stock) ∧
    (∀ (s : Store) (op : LedgerOp) (mid : ℕ), WFStore s →
      0 ≤ matStock (applyOp s op) mid) := by
  constructor
  · intro m
    show quantizeAtHU m.unit.displayPrec (quantizeAtHU m.unit.displayPrec m.stock) = _
    rw [quantizeAtHU_idem (by cases m.unit <;> decide)]
    rfl
  · intro s op mid hWF
    exact matStock_nonneg (applyOp_WF hWF op) mid

/-- Witness for the amended C6: cleaning Paper at 7.495 m yields the
stable display value 7.50, and the successful debit on `oddStore`
leaves a non-negative stock. -/
theorem material_stock_write_discipline_witness :
    (Material.clean ⟨1, "Paper", .meter, 7495⟩).stock_display =
      (Material.clean ⟨1, "Paper", .meter, 7495⟩).stock ∧
    0 ≤ matStock (applyOp oddStore (.production 0 1 none 5000)) 1 :=
  ⟨material_stock_write_discipline.1 ⟨1, "Paper", .meter, 7495⟩,
   material_stock_write_discipline.2 oddStore (.production 0 1 none 5000) 1
     (by decide)⟩

theorem materialLocks_append (A B : List Event) :
    materialLocks (A ++ B) = materialLocks A ++ materialLocks B := by
  induction A with
  | nil => rfl
  | cons ev t ih => cases ev <;> simp [materialLocks, ih]

theorem materialLocks_map_lock {α : Type} (f : α → ℕ) (l : List α) :
    materialLocks (l.map (fun x => Event.lockMaterial (f x))) = l.map f := by
  induction l with
  | nil => rfl
  | cons x t ih => simp [materialLocks, ih]

/-- Every event the check loop emits is a material lock. -/
theorem checkBom_trace_locks (s : Store) (q : ℤ) :
    ∀ bom, ∀ ev ∈ (checkBom s q bom).2, isMaterialLock ev = true := by
  intro bom
  induction bom with
  | nil => intro ev hev; simp [checkBom] at hev
  | cons item rest ih =>
    intro ev hev
    simp only [checkBom] at hev
    cases hfm : findMaterial s item.material_id with
    | none =>
      rw [hfm] at hev
      simp at hev
    | some mat =>
      rw [hfm] at hev
      cases hcb : (checkBom s q rest).1 with
      | ok l =>
        rw [hcb] at hev
        rcases List.mem_cons.mp hev with rfl | hev'
        · rfl
        · exact ih ev hev'
      | error e1 =>
        rw [hcb] at hev
        rcases List.mem_cons.mp hev with rfl | hev'
        · rfl
        · exact ih ev hev'

/-- The mutation loop's trace is one material write per snapshot. -/
theorem applyDebits_trace : ∀ (l : List (Material × ℤ)) (s : Store),
    (applyDebits s l).2 = l.map (fun p => Event.writeMaterial p.1.id) := by
  intro l
  induction l with
  | nil => intro s; rfl
  | cons p rest ih =>
    intro s
    rw [applyDebits]
    simp [ih]

theorem mem_of_mem_dropWhile {α : Type} {p : α → Bool} :
    ∀ {l : List α} {x : α}, x ∈ l.dropWhile p → x ∈ l := by
  intro l
  induction l with
  | nil => intro x hx; simp at hx
  | cons a t ih =>
    intro x hx
    cases hp : p a with
    | true =>
      rw [List.dropWhile_cons_of_pos hp] at hx
      exact List.mem_cons_of_mem a (ih hx)
    | false =>
      rw [List.dropWhile_cons_of_neg (by simp [hp])] at hx
      exact hx

theorem locksBeforeWrites_of_no_writes {tr : List Event}
    (h : ∀ ev ∈ tr, isStockWrite ev = false) : locksBeforeWrites tr = true := by
  rw [locksBeforeWrites]
  have hnil : tr.dropWhile (fun ev => !isStockWrite ev) = [] := by
    rw [List.dropWhile_eq_nil_iff]
    intro x hx
    simp [h x hx]
  rw [hnil]
  rfl

theorem dropWhile_append_of_all {α : Type} {p : α → Bool} {A : List α}
    (h : ∀ a ∈ A, p a = true) (B : List α) :
    (A ++ B).dropWhile p = B.dropWhile p := by
  induction A with
  | nil => rfl
  | cons a t ih =>
    rw [List.cons_append, List.dropWhile_cons_of_pos (h a (by simp))]
    exact ih (fun x hx => h x (by simp [hx]))

theorem locksBeforeWrites_of_split {pre post : List Event}
    (hpre : ∀ ev ∈ pre, isStockWrite ev = false)
    (hpost : ∀ ev ∈ post, isMaterialLock ev = false) :
    locksBeforeWrites (pre ++ post) = true := by
  rw [locksBeforeWrites,
    dropWhile_append_of_all (fun a ha => by simp [hpre a ha]) post]
  rw [List.all_eq_true]
  intro ev hev
  simp [hpost ev (mem_of_mem_dropWhile hev)]

/-- Claim C4, counterexample: The BOM query in `ProductionOperation.save`
has no `order_by`, so material locks follow BOM-row order, not
ascending material id: a successful production event on
`unorderedBomStore` locks material 5 before material 2. -/
theorem lock_order_not_ascending_counterexample :
    (productionSaveT unorderedBomStore 0 1 none 1000).1 =
      .ok (applyOp unorderedBomStore (.production 0 1 none 1000)) ∧
    materialLocks (productionSaveT unorderedBomStore 0 1 none 1000).2 = [5, 2] ∧
    ascendingB
      (materialLocks (productionSaveT unorderedBomStore 0 1 none 1000).2) = false := by
  decide

theorem write_false_of_lock {ev : Event} (h : isMaterialLock ev = true) :
    isStockWrite ev = false := by
  cases ev <;> simp [isMaterialLock, isStockWrite] at h ⊢

theorem materialLocks_map_write {α : Type} (f : α → ℕ) (l : List α) :
    materialLocks (l.map (fun x => Event.writeMaterial (f x))) = [] := by
  induction l with
  | nil => rfl
  | cons x t ih => simp [materialLocks, ih]

/-- The four possible trace shapes of `ProductionOperation.save`:
nothing, product lock only, product lock followed by the check loop's
material locks (failure after locking), or the full successful trace —
product lock, all material locks, then the writes. -/
theorem productionSaveT_trace_shape (s : Store) (e pid : ℕ) (b : Option ℕ)
    (qty : ℤ) :
    (productionSaveT s e pid b qty).2 = [] ∨
    (productionSaveT s e pid b qty).2 = [.lockProduct pid] ∨
    ((productionSaveT s e pid b qty).2 =
       .lockProduct pid :: (checkBom s qty (bomFor s pid)).2) ∨
    (∃ reqMap, (checkBom s qty (bomFor s pid)).1 = .ok reqMap ∧
      (productionSaveT s e pid b qty).2 =
        .lockProduct pid :: (checkBom s qty (bomFor s pid)).2 ++
          (applyDebits s reqMap).2 ++ [.writeProduct pid]) := by
  simp only [productionSaveT]
  split
  · exact .inl rfl
  · split
    · exact .inl rfl
    next product hfp =>
      split
      · exact .inr (.inl rfl)
      next hbe =>
        split
        next e1 hcb => exact .inr (.inr (.inl rfl))
        next reqMap hcb =>
          split
          · exact .inr (.inr (.inl rfl))
          next hsf => exact .inr (.inr (.inr ⟨reqMap, hcb, rfl⟩))

/-- Claim C4, amended: Within a single Record Production event, the
product lock and then every material lock are acquired before any
stock write (`locksBeforeWrites`); but the material locks are acquired
in BOM-row order — the order the unordered BOM query returns — which,
when the query completes (valid quantity, product and all recipe
materials present), is exactly `bomFor`'s stored order, not sorted by
material id. -/
theorem production_locks_before_writes_in_bom_order (s : Store) (e pid : ℕ)
    (b : Option ℕ) (qty : ℤ) :
    locksBeforeWrites (productionSaveT s e pid b qty).2 = true ∧
    ((0 < qty ∧ qty % 1000 = 0) →
      (findProduct s pid).isSome →
      (∀ item ∈ bomFor s pid, (findMaterial s item.material_id).isSome) →
      materialLocks (productionSaveT s e pid b qty).2 =
        (bomFor s pid).map BillOfMaterial.material_id) := by
  constructor
  · rcases productionSaveT_trace_shape s e pid b qty with
      h | h | h | ⟨reqMap, hcb, h⟩ <;> rw [h]
    · rfl
    · apply locksBeforeWrites_of_no_writes
      intro ev hev
      rw [List.mem_singleton] at hev
      subst hev
      rfl
    · apply locksBeforeWrites_of_no_writes
      intro ev hev
      rcases List.mem_cons.mp hev with rfl | hev'
      · rfl
      · exact write_false_of_lock (checkBom_trace_locks s qty (bomFor s pid) ev hev')
    · have hsplit : Event.lockProduct pid :: (checkBom s qty (bomFor s pid)).2 ++
          (applyDebits s reqMap).2 ++ [Event.writeProduct pid] =
          (Event.lockProduct pid :: (checkBom s qty (bomFor s pid)).2) ++
            ((applyDebits s reqMap).2 ++ [Event.writeProduct pid]) := by
        simp
      rw [hsplit]
      apply locksBeforeWrites_of_split
      · intro ev hev
        rcases List.mem_cons.mp hev with rfl | hev'
        · rfl
        · exact write_false_of_lock (checkBom_trace_locks s qty (bomFor s pid) ev hev')
      · intro ev hev
        rw [applyDebits_trace] at hev
        rcases List.mem_append.mp hev with hev' | hev'
        · obtain ⟨p, _, rfl⟩ := List.mem_map.mp hev'
          rfl
        · rw [List.mem_singleton] at hev'
          subst hev'
          rfl
  · intro hq hfpS hall
    obtain ⟨l0, tr0, hcb0⟩ := checkBom_isOk s qty hall
    obtain ⟨hf20, htr0⟩ := checkBom_ok hcb0
    have hids := checkBom_ids hf20
    have htr0' : (checkBom s qty (bomFor s pid)).2 =
        List.map (fun p => Event.lockMaterial p.1.id) l0 := by
      rw [hcb0]
      exact htr0
    have hlocks : materialLocks (checkBom s qty (bomFor s pid)).2 =
        (bomFor s pid).map BillOfMaterial.material_id := by
      rw [htr0', materialLocks_map_lock (fun p => p.1.id) l0, hids]
    obtain ⟨product, hfp⟩ := Option.isSome_iff_exists.mp hfpS
    have hcb1 : (checkBom s qty (bomFor s pid)).1 = .ok l0 :=
      congrArg Prod.fst hcb0
    simp only [productionSaveT]
    rw [if_neg (not_not_intro hq)]
    simp only [hfp]
    by_cases hbe : (bomFor s pid).isEmpty
    · rw [if_pos hbe, List.isEmpty_iff.mp hbe]
      rfl
    · rw [if_neg hbe]
      simp only [hcb1]
      by_cases hsf : shortfalls l0 ≠ []
      · rw [if_pos hsf]
        exact hlocks
      · rw [if_neg hsf]
        show materialLocks (.lockProduct pid :: (checkBom s qty (bomFor s pid)).2 ++
          (applyDebits s l0).2 ++ [.writeProduct pid]) = _
        have hm : materialLocks (Event.lockProduct pid ::
            (checkBom s qty (bomFor s pid)).2 ++ (applyDebits s l0).2 ++
              [Event.writeProduct pid]) =
            materialLocks ((checkBom s qty (bomFor s pid)).2 ++
              (applyDebits s l0).2 ++ [Event.writeProduct pid]) := rfl
        rw [hm, materialLocks_append, materialLocks_append,
          applyDebits_trace, materialLocks_map_write (fun p => p.1.id) l0, hlocks]
        simp [materialLocks]

/-- Witness for the amended C4 on the out-of-order store: the trace
locks materials 5 then 2 — the BOM-row order — all before any write. -/
theorem production_locks_before_writes_in_bom_order_witness :
    locksBeforeWrites (productionSaveT unorderedBomStore 0 1 none 1000).2 = true ∧
    materialLocks (productionSaveT unorderedBomStore 0 1 none 1000).2 =
      (bomFor unorderedBomStore 1).map BillOfMaterial.material_id := by
  have h := production_locks_before_writes_in_bom_order unorderedBomStore 0 1 none 1000
  exact ⟨h.1, h.2 (by decide) (by decide) (by decide)⟩

end Factory
